import Mathlib

/-!
Verification of the ZiCount receipt scanner core (src/scanner.py).

The scanner turns OCR tokens (text, confidence, bounding box) into purchase
line items.  This file gives a shallow embedding of the core pipeline:
geometry helpers, the price / VAT-tag / unit-price regular expressions
(embedded as an executable backtracking matcher over character lists),
locale-aware price parsing, VAT-token normalization with the
confusable-glyph table, row grouping, name association, item assembly and
token deduplication.  Coordinates, scores and prices are modelled as
rationals.  Unicode library behaviour (NFKD decomposition, combining-mark
categories, `str.isdigit`, `unicodedata.name` heuristics) is modelled by
explicit character tables that are faithful on the character ranges the
scanner manipulates (ASCII, Latin-1, Greek and Cyrillic letters, a few
special glyphs).
-/

set_option allowUnsafeReducibility true in
attribute [semireducible] Rat.add Rat.mul Rat.inv Rat.sub

/-- Axis-aligned bounding box `(x1, y1, x2, y2)` with rational coordinates. -/
structure Box where
  x1 : ℚ
  y1 : ℚ
  x2 : ℚ
  y2 : ℚ
  deriving DecidableEq, Repr

/-- An OCR token: recognized text, optional confidence score, bounding box. -/
structure Token where
  text : String
  score : Option ℚ
  box : Box
  deriving DecidableEq, Repr

/-- The `inter` value computed by `vertical_overlap_ratio`: length of the
intersection of the two y-intervals, clamped at `0`. -/
def vorInterLen (a b : Box) : ℚ := max 0 (min a.y2 b.y2 - max a.y1 b.y1)

/-- The `union` value computed by `vertical_overlap_ratio`: sum of the two
interval lengths minus the intersection length. -/
def vorUnionLen (a b : Box) : ℚ := (a.y2 - a.y1) + (b.y2 - b.y1) - vorInterLen a b

/-- `vertical_overlap_ratio` from scanner.py: intersection of the two
y-intervals over their union, `0` when the union is not positive. -/
def vertical_overlap_ratio (a b : Box) : ℚ :=
  if vorUnionLen a b > 0 then vorInterLen a b / vorUnionLen a b else 0

/-! ### Character classification (modelling Python's str/unicodedata) -/

/-- Python `str.strip` whitespace (the ASCII part, which is what the
scanner's inputs contain). -/
def pyIsWs (c : Char) : Bool :=
  c == ' ' || c == '\t' || c == '\n' || c == '\r' || c == '\x0b' || c == '\x0c'

/-- Greek block `Ͱ-Ͽ` kept by the VAT normalizer. -/
def isGreekChar (c : Char) : Bool := decide (0x370 ≤ c.toNat ∧ c.toNat ≤ 0x3FF)

/-- Cyrillic block `Ѐ-ӿ` kept by the VAT normalizer. -/
def isCyrChar (c : Char) : Bool := decide (0x400 ≤ c.toNat ∧ c.toNat ≤ 0x4FF)

/-- The character class `[0-9A-Za-zͰ-ϿЀ-ӿ]` of
`_normalize_vat_token`'s cleanup regex. -/
def keepAlnum (c : Char) : Bool := c.isAlphanum || isGreekChar c || isCyrChar c

/-- Python's `\w` (word character) as used for `\b` boundaries, on the
character ranges the scanner sees: ASCII alphanumerics, underscore,
Latin-1 letters, Greek and Cyrillic. -/
def pyWordChar (c : Char) : Bool :=
  c.isAlphanum || c == '_' || isGreekChar c || isCyrChar c ||
    decide (0xC0 ≤ c.toNat ∧ c.toNat ≤ 0xFF ∧ c.toNat ≠ 0xD7 ∧ c.toNat ≠ 0xF7)

/-- Python `str.isdigit` per character, on the ranges the scanner sees:
ASCII digits, circled digits, superscripts. -/
def pyIsDigit (c : Char) : Bool :=
  c.isDigit || decide (0x2460 ≤ c.toNat ∧ c.toNat ≤ 0x2468) ||
    c == '²' || c == '³' || c == '¹'

/-- NFKD decomposition per character, modelled on the glyphs the scanner
manipulates: circled digits and superscripts decompose to plain digits,
the German umlauts and common accented vowels decompose to their base
letter plus a combining mark, and the precomposed Cyrillic letters of the
block `Ѐ-ӿ` decompose to their base letter plus a combining grave, acute,
breve, diaeresis or double grave; everything else is NFKD-stable. -/
def nfkdChar (c : Char) : List Char :=
  if decide (0x2460 ≤ c.toNat ∧ c.toNat ≤ 0x2468) then
    [Char.ofNat (0x31 + (c.toNat - 0x2460))]
  else if c == '²' then ['2']
  else if c == '³' then ['3']
  else if c == '¹' then ['1']
  else if c == 'ä' then ['a', '̈']
  else if c == 'ö' then ['o', '̈']
  else if c == 'ü' then ['u', '̈']
  else if c == 'Ä' then ['A', '̈']
  else if c == 'Ö' then ['O', '̈']
  else if c == 'Ü' then ['U', '̈']
  else if c == 'é' then ['e', '́']
  else if c == 'è' then ['e', '̀']
  else if c == 'á' then ['a', '́']
  else if c.toNat == 0x400 then [Char.ofNat 0x415, Char.ofNat 0x300]
  else if c.toNat == 0x450 then [Char.ofNat 0x435, Char.ofNat 0x300]
  else if c.toNat == 0x40D then [Char.ofNat 0x418, Char.ofNat 0x300]
  else if c.toNat == 0x45D then [Char.ofNat 0x438, Char.ofNat 0x300]
  else if c.toNat == 0x401 then [Char.ofNat 0x415, Char.ofNat 0x308]
  else if c.toNat == 0x451 then [Char.ofNat 0x435, Char.ofNat 0x308]
  else if c.toNat == 0x403 then [Char.ofNat 0x413, Char.ofNat 0x301]
  else if c.toNat == 0x453 then [Char.ofNat 0x433, Char.ofNat 0x301]
  else if c.toNat == 0x407 then [Char.ofNat 0x406, Char.ofNat 0x308]
  else if c.toNat == 0x457 then [Char.ofNat 0x456, Char.ofNat 0x308]
  else if c.toNat == 0x40C then [Char.ofNat 0x41A, Char.ofNat 0x301]
  else if c.toNat == 0x45C then [Char.ofNat 0x43A, Char.ofNat 0x301]
  else if c.toNat == 0x40E then [Char.ofNat 0x423, Char.ofNat 0x306]
  else if c.toNat == 0x45E then [Char.ofNat 0x443, Char.ofNat 0x306]
  else if c.toNat == 0x419 then [Char.ofNat 0x418, Char.ofNat 0x306]
  else if c.toNat == 0x439 then [Char.ofNat 0x438, Char.ofNat 0x306]
  else if c.toNat == 0x476 then [Char.ofNat 0x474, Char.ofNat 0x30F]
  else if c.toNat == 0x477 then [Char.ofNat 0x475, Char.ofNat 0x30F]
  else if c.toNat == 0x4C1 then [Char.ofNat 0x416, Char.ofNat 0x306]
  else if c.toNat == 0x4C2 then [Char.ofNat 0x436, Char.ofNat 0x306]
  else if c.toNat == 0x4D0 then [Char.ofNat 0x410, Char.ofNat 0x306]
  else if c.toNat == 0x4D1 then [Char.ofNat 0x430, Char.ofNat 0x306]
  else if c.toNat == 0x4D6 then [Char.ofNat 0x415, Char.ofNat 0x306]
  else if c.toNat == 0x4D7 then [Char.ofNat 0x435, Char.ofNat 0x306]
  else [c]

/-- Combining-mark test (Unicode general category `M`), on the standard
combining blocks. -/
def isCombMark (c : Char) : Bool :=
  decide ((0x300 ≤ c.toNat ∧ c.toNat ≤ 0x36F) ∨
          (0x483 ≤ c.toNat ∧ c.toNat ≤ 0x489) ∨
          (0x1AB0 ≤ c.toNat ∧ c.toNat ≤ 0x1AFF) ∨
          (0x20D0 ≤ c.toNat ∧ c.toNat ≤ 0x20FF))

/-- Python `str.strip` on a character list. -/
def pyStripL (l : List Char) : List Char :=
  ((l.dropWhile pyIsWs).reverse.dropWhile pyIsWs).reverse

/-- Case folding for the scanner's case-insensitive regexes: ASCII and
Latin-1 letters fold to lower case. -/
def foldLower (c : Char) : Char :=
  if decide (0x41 ≤ c.toNat ∧ c.toNat ≤ 0x5A) then Char.ofNat (c.toNat + 0x20)
  else if decide (0xC0 ≤ c.toNat ∧ c.toNat ≤ 0xDE ∧ c.toNat ≠ 0xD7) then
    Char.ofNat (c.toNat + 0x20)
  else c

/-- Python `str.upper` of a single character, on the ranges reaching the
VAT normalizer's fallback (ASCII, `ß`, Greek, Cyrillic, Latin-1). -/
def pyUpperChar (c : Char) : String :=
  if c == 'ß' then "SS"
  else if decide (0x61 ≤ c.toNat ∧ c.toNat ≤ 0x7A) then
    String.mk [Char.ofNat (c.toNat - 0x20)]
  else if c == 'ς' then "Σ"
  else if decide (0x3B1 ≤ c.toNat ∧ c.toNat ≤ 0x3C9) then
    String.mk [Char.ofNat (c.toNat - 0x20)]
  else if decide (0x430 ≤ c.toNat ∧ c.toNat ≤ 0x44F) then
    String.mk [Char.ofNat (c.toNat - 0x20)]
  else if decide (0x450 ≤ c.toNat ∧ c.toNat ≤ 0x45F) then
    String.mk [Char.ofNat (c.toNat - 0x50)]
  else if decide (0xE0 ≤ c.toNat ∧ c.toNat ≤ 0xFE ∧ c.toNat ≠ 0xF7) then
    String.mk [Char.ofNat (c.toNat - 0x20)]
  else String.mk [c]

/-! ### A small backtracking regex engine

A matcher takes the subject (as a character list) and a start position and
returns the list of possible end positions, in backtracking priority
order (greedy first).  `reSearch` scans start positions left to right and
takes the highest-priority match, which is exactly Python `re.search`'s
leftmost/greedy semantics for the patterns embedded here. -/

/-- Matcher type: subject, start position, possible end positions in
priority order. -/
abbrev Re := List Char → Nat → List Nat

/-- Empty pattern. -/
def reEps : Re := fun _ i => [i]

/-- Never matches. -/
def reFail : Re := fun _ _ => []

/-- Single character matching a (Bool) class. -/
def reCls (p : Char → Bool) : Re := fun A i =>
  match A.get? i with
  | some c => if p c then [i + 1] else []
  | none => []

/-- Literal character. -/
def reChr (c : Char) : Re := reCls (fun d => d == c)

/-- Case-insensitive literal character. -/
def reChrNC (c : Char) : Re := reCls (fun d => foldLower d == foldLower c)

/-- Concatenation. -/
def reSeq (a b : Re) : Re := fun A i => (a A i).flatMap (b A)

/-- Alternation (left first, as in Python). -/
def reAlt (a b : Re) : Re := fun A i => a A i ++ b A i

/-- Greedy `?`. -/
def reOpt (a : Re) : Re := reAlt a reEps

/-- Greedy Kleene star, fuelled (each iteration must consume). -/
def reStarFuel : Nat → Re → Re
  | 0, _ => fun _ i => [i]
  | n + 1, a => fun A i => (((a A i).filter (fun j => decide (i < j))).flatMap
      (reStarFuel n a A)) ++ [i]

/-- Greedy Kleene star. -/
def reStar (a : Re) : Re := fun A i => reStarFuel (A.length + 1 - i) a A i

/-- Zero-width test on the next character (`none` at end of subject). -/
def reTest (p : Option Char → Bool) : Re := fun A i =>
  if p (A.get? i) then [i] else []

/-- Zero-width test on the previous character (`none` at start). -/
def reTestPrev (p : Option Char → Bool) : Re := fun A i =>
  if p (if i = 0 then none else A.get? (i - 1)) then [i] else []

/-- Concatenation of a list of matchers. -/
def reSeqs (l : List Re) : Re := l.foldr reSeq reEps

/-- Alternation of a list of matchers (first alternative first). -/
def reAlts (l : List Re) : Re := l.foldr reAlt reFail

/-- Case-insensitive literal string. -/
def reStrNC (s : String) : Re := reSeqs (s.data.map reChrNC)

/-- Word boundary before a word character: previous char absent or
non-word. -/
def reNotWordPrev : Re := reTestPrev (fun c? =>
  match c? with
  | none => true
  | some c => !pyWordChar c)

/-- Word boundary after a word character: next char absent or non-word. -/
def reNotWordNext : Re := reTest (fun c? =>
  match c? with
  | none => true
  | some c => !pyWordChar c)

/-- The lookbehind `(?<!\d)`. -/
def reNoDigitPrev : Re := reTestPrev (fun c? =>
  match c? with
  | none => true
  | some c => !c.isDigit)

/-- Leftmost-greedy search: first start position with a match, together
with its highest-priority end position. -/
def reSearch (r : Re) (s : String) : Option (Nat × Nat) :=
  (List.range (s.data.length + 1)).findSome? (fun i =>
    (r s.data i).head?.map (fun j => (i, j)))

/-! ### The scanner's regular expressions -/

/-- `\s*`. -/
def spacesRe : Re := reStar (reCls pyIsWs)

/-- `\d`. -/
def digitRe : Re := reCls Char.isDigit

/-- `[.,]`. -/
def sepRe : Re := reCls (fun c => c == '.' || c == ',')

/-- First alternative of `PRICE_CORE`:
`\d{1,3}(?:[.,]\d{3})*(?:[.,]\d{2})`. -/
def coreARe : Re :=
  reSeqs [digitRe, reOpt digitRe, reOpt digitRe,
    reStar (reSeqs [sepRe, digitRe, digitRe, digitRe]),
    sepRe, digitRe, digitRe]

/-- Second alternative of `PRICE_CORE`: `\d+[.,]\d{2}`. -/
def coreBRe : Re := reSeqs [digitRe, reStar digitRe, sepRe, digitRe, digitRe]

/-- `PRICE_CORE`. -/
def coreRe : Re := reAlt coreARe coreBRe

/-- `(?:€|\bEUR\b)` (case-insensitive). -/
def curRe : Re :=
  reAlt (reChr '€')
    (reSeqs [reNotWordPrev, reChrNC 'e', reChrNC 'u', reChrNC 'r', reNotWordNext])

/-- `[ABC]` under the `i` flag. -/
def abcClsRe : Re := reCls (fun c =>
  c == 'A' || c == 'B' || c == 'C' || c == 'a' || c == 'b' || c == 'c')

/-- `PRICE_RE`:
`(?<!\d)\s*(?:€|\bEUR\b)?\s*(CORE)\s*(?:€|\bEUR\b)?(?:\s*[ABC])?`. -/
def priceRe : Re :=
  reSeqs [reNoDigitPrev, spacesRe, reOpt curRe, spacesRe, coreRe,
    spacesRe, reOpt curRe, reOpt (reSeq spacesRe abcClsRe)]

/-- Everything of `PRICE_WITH_VAT_RE` before the final `([ABC])\b`. -/
def pwvHeadRe : Re :=
  reSeqs [reNoDigitPrev, spacesRe, reOpt curRe, spacesRe, coreRe,
    spacesRe, reOpt curRe, spacesRe]

/-- `PRICE_WITH_VAT_RE`:
`(?<!\d)\s*(?:€|\bEUR\b)?\s*(CORE)\s*(?:€|\bEUR\b)?\s*([ABC])\b`. -/
def priceWithVatRe : Re := reSeq pwvHeadRe (reSeq abcClsRe reNotWordNext)

/-- The unit word class `(kg|g|100g|l|ml|stk|stück)`. -/
def unitWordsRe : Re :=
  reAlts [reStrNC "kg", reStrNC "g", reStrNC "100g", reStrNC "l",
    reStrNC "ml", reStrNC "stk", reStrNC "stück"]

/-- `UNIT_PRICE_RE`:
`€\s*/\s*(units) | (pro|per)\s*(units) | /(kg|g|100g|l|ml)`. -/
def unitPriceRe : Re :=
  reAlts [reSeqs [reChr '€', spacesRe, reChr '/', spacesRe, unitWordsRe],
    reSeqs [reAlt (reStrNC "pro") (reStrNC "per"), spacesRe, unitWordsRe],
    reSeq (reChr '/')
      (reAlts [reStrNC "kg", reStrNC "g", reStrNC "100g", reStrNC "l",
        reStrNC "ml"])]

/-- `QTY_ONLY_RE`: `(?i)^\s*\d+\s*(stk|stück|x)\b`, used with `re.match`. -/
def qtyOnlyRe : Re :=
  reSeqs [spacesRe, digitRe, reStar digitRe, spacesRe,
    reAlts [reStrNC "stk", reStrNC "stück", reChrNC 'x'], reNotWordNext]

/-- `BAD_NAME_KEYWORDS_RE`: boilerplate keyword blacklist with `\b`
boundaries, case-insensitive. -/
def badNameKeywordsRe : Re :=
  reSeqs [reNotWordPrev,
    reAlts [reStrNC "summe", reStrNC "zwischensumme", reStrNC "gesamt",
      reStrNC "total",
      reSeqs [reStrNC "zu", spacesRe, reStrNC "zahlen"],
      reStrNC "rundung", reStrNC "rabatt", reStrNC "pfand",
      reSeqs [reStrNC "ec", reStar (reCls (fun c => c == '-' || pyIsWs c)),
        reStrNC "cash"],
      reStrNC "kundenbeleg", reStrNC "kassenbon", reStrNC "kassenbeleg",
      reStrNC "uid",
      reSeq (reStrNC "steuer") (reOpt (reChrNC 'n')),
      reStrNC "mwst", reStrNC "ust",
      reSeq (reStrNC "eur") (reTest (fun c? => c?.isNone))],
    reNotWordNext]

/-- `IGNORE_NAME_TOKENS_RE.fullmatch`: `^(?:€|EUR|[ABC]|[①②③④⑤⑥⑦⑧⑨])$`
(no `i` flag, so exact case). -/
def ignoreNameToken (s : String) : Bool :=
  s == "€" || s == "EUR" || s == "A" || s == "B" || s == "C" ||
  s == "①" || s == "②" || s == "③" || s == "④" || s == "⑤" ||
  s == "⑥" || s == "⑦" || s == "⑧" || s == "⑨"

/-- Whether `PRICE_RE.search` succeeds on a string. -/
def priceSearchB (s : String) : Bool := (reSearch priceRe s).isSome

/-- Whether `UNIT_PRICE_RE.search` succeeds on a string. -/
def unitSearchB (s : String) : Bool := (reSearch unitPriceRe s).isSome

/-- Whether `QTY_ONLY_RE.match` (anchored at position 0) succeeds. -/
def qtyMatchB (s : String) : Bool := !(qtyOnlyRe s.data 0).isEmpty

/-! ### Price parsing (`parse_price_value`) -/

/-- Index of the last occurrence of `c` in `l` (Python `str.rfind`,
with `none` for Python's `-1`). -/
def lastIdx? : List Char → Char → Option Nat
  | [], _ => none
  | a :: as, c =>
    match lastIdx? as c with
    | some r => some (r + 1)
    | none => if a = c then some 0 else none

/-- `rfind x > rfind y` with Python's `-1` for "not found". -/
def idxGT (a b : Option Nat) : Bool :=
  match a, b with
  | some i, some j => decide (j < i)
  | some _, none => true
  | none, _ => false

/-- Remove every occurrence of a character (Python `str.replace(c, '')`). -/
def removeAll (l : List Char) (c : Char) : List Char :=
  l.filter (fun d => !(d == c))

/-- Replace every occurrence of a character (Python `str.replace(a, b)`). -/
def replaceAll (l : List Char) (a b : Char) : List Char :=
  l.map (fun d => if d == a then b else d)

/-- Character of `l` at `i` is an ASCII digit. -/
def digitAt (l : List Char) (i : Nat) : Bool :=
  match l.get? i with
  | some c => c.isDigit
  | none => false

/-- Character of `l` at `i` equals `c`. -/
def charAt (l : List Char) (i : Nat) (c : Char) : Bool := l.get? i == some c

/-- Whether `re.search(r'\d{1,3}\,\d{3}', s)` succeeds: some digit is
immediately followed by a comma and three digits. -/
def hasThousandsB (l : List Char) : Bool :=
  (List.range l.length).any (fun i =>
    digitAt l i && charAt l (i + 1) ',' &&
    digitAt l (i + 2) && digitAt l (i + 3) && digitAt l (i + 4))

/-- Maximal digit run of `l` starting at position `i`. -/
def digitsRun (l : List Char) (i : Nat) : List Char :=
  (l.drop i).takeWhile Char.isDigit

/-- Numeric value of a digit string. -/
def natValQ (ds : List Char) : ℚ :=
  ((ds.foldl (fun n c => 10 * n + (c.toNat - 48)) 0 : Nat) : ℚ)

/-- The number matched by `[-+]?\d*\.?\d+|\d+` at position `i` of `l`
(greedy with backtracking), already evaluated: an optional sign, a digit
run, and — when a dot with at least one following digit comes next — a
fractional part.  When the dot is not followed by a digit the engine
backtracks and the match is the integer run alone. -/
def tryNumAt (l : List Char) (i : Nat) : Option ℚ :=
  let neg := charAt l i '-'
  let j := if neg || charAt l i '+' then i + 1 else i
  let sgn : ℚ := if neg then -1 else 1
  let ds := digitsRun l j
  let k := j + ds.length
  if charAt l k '.' then
    let ds2 := digitsRun l (k + 1)
    if ds2.isEmpty then
      if ds.isEmpty then none else some (sgn * natValQ ds)
    else some (sgn * (natValQ ds + natValQ ds2 / (10 : ℚ) ^ ds2.length))
  else if ds.isEmpty then none else some (sgn * natValQ ds)

/-- Value of the first number found by
`re.findall(r'[-+]?\d*\.?\d+|\d+', s)`, parsed by Python `float`. -/
def firstNumL (l : List Char) : Option ℚ :=
  (List.range (l.length + 1)).findSome? (tryNumAt l)

/-- `parse_price_value` from scanner.py: locale-aware separator
normalization, then the first numeric substring; the currency is the
fixed string "EUR".  The numeric value is kept as the exact rational
value of the matched numeral; the code stores `float(nums[0])`, an IEEE
double, which equals that exact value rounded — in particular it
saturates to infinity once the numeral reaches the double overflow
threshold, which `pyFloatIsInf` below expresses over the exact value. -/
def parse_price_value (raw : String) : Option ℚ × String :=
  let s := pyStripL raw.data
  let lastComma := lastIdx? s ','
  let lastDot := lastIdx? s '.'
  let s2 :=
    if idxGT lastComma lastDot then replaceAll (removeAll s '.') ',' '.'
    else if s.contains ',' && hasThousandsB s then removeAll s ','
    else replaceAll s ',' '.'
  (firstNumL s2, "EUR")

/-- The IEEE double round-to-nearest overflow threshold: a non-negative
decimal value rounds to infinity exactly when it reaches
`2^1024 - 2^970` (the midpoint between the largest finite double
`2^1024 - 2^971` and `2^1024`, which ties away to the even `2^1024`). -/
def dblOvfBound : ℚ := ((2 ^ 1024 - 2 ^ 970 : ℕ) : ℚ)

/-- Whether Python's `float` of a numeral with this exact value is
infinite: `float(nums[0])` in `parse_price_value` saturates to `inf`
exactly when the numeral's value reaches the overflow threshold. -/
def pyFloatIsInf (v : ℚ) : Bool := decide (dblOvfBound ≤ |v|)

/-! ### VAT-token normalization -/

/-- `_VISUAL_MAP` from scanner.py: confusable-glyph corrections.  (The
dict literal lists `'ß'` twice with the same value; one entry remains.) -/
def visualMap : List (Char × Char) :=
  [('Β', 'B'), ('В', 'B'), ('А', 'A'), ('Α', 'A'), ('С', 'C'), ('Ϲ', 'C'),
   ('฿', 'B'), ('Ƀ', 'B'),
   ('8', 'B'), ('3', 'B'), ('ß', 'B'),
   ('0', 'O'), ('1', 'I'), ('l', 'I'),
   ('α', 'A'), ('с', 'C')]

/-- Cyrillic code points of the block `Ѐ-ӿ` whose `unicodedata.name`
contains the substring "VE": the letter VE itself (`В`/`в`) and the
precomposed forms whose names end in "WITH GRAVE", "WITH BREVE" or
"WITH DOUBLE GRAVE ACCENT" (all of which contain "VE"). -/
def cyrNameHasVE (ch : Char) : Bool :=
  ch.toNat == 0x412 || ch.toNat == 0x432 ||
  ch.toNat == 0x400 || ch.toNat == 0x450 ||
  ch.toNat == 0x40D || ch.toNat == 0x45D ||
  ch.toNat == 0x476 || ch.toNat == 0x477 ||
  ch.toNat == 0x4C1 || ch.toNat == 0x4C2 ||
  ch.toNat == 0x4D0 || ch.toNat == 0x4D1 ||
  ch.toNat == 0x4D6 || ch.toNat == 0x4D7

/-- The `unicodedata.name` heuristics of `_map_char_to_abc`, modelled as
tables: a Greek glyph whose name contains "BETA" maps to B; a Cyrillic
glyph maps to B when its name contains "VE", else to A — and every name
in the Cyrillic block `Ѐ-ӿ` contains an "A", through "CAPITAL",
"SMALL", "THOUSANDS SIGN" or "PALOCHKA" — so every non-VE Cyrillic
glyph maps to A. -/
def nameHeurABC (ch : Char) : Option Char :=
  if isGreekChar ch then
    if ch == 'Β' || ch == 'β' || ch == 'ϐ' then some 'B' else none
  else if isCyrChar ch then
    if cyrNameHasVE ch then some 'B' else some 'A'
  else none

/-- `_map_char_to_abc` from scanner.py. -/
def map_char_to_abc (ch : Char) : Option Char :=
  if ch == 'A' || ch == 'a' then some 'A'
  else if ch == 'B' || ch == 'b' then some 'B'
  else if ch == 'C' || ch == 'c' then some 'C'
  else
    match visualMap.lookup ch with
    | some v => some v
    | none => nameHeurABC ch

/-- NFKD decomposition followed by removal of combining marks (the first
two normalization steps of `_normalize_vat_token`). -/
def nfkdStripMarksL (l : List Char) : List Char :=
  (l.flatMap nfkdChar).filter (fun c => !isCombMark c)

/-- `_normalize_vat_token` from scanner.py. -/
def normalize_vat_token (txt : String) : Option String :=
  if txt.data.isEmpty then none
  else
    let s := pyStripL txt.data
    if s.isEmpty then none
    else
      let s1 := nfkdStripMarksL s
      let sAl := s1.filter keepAlnum
      if sAl.isEmpty then
        if s1.any (fun c => !pyIsDigit c) then some "B" else none
      else
        let mapped := sAl.filterMap map_char_to_abc
        match mapped.find? (fun c => c == 'A' || c == 'B' || c == 'C') with
        | some c => some (String.mk [c])
        | none =>
          if sAl.length == 1 && !(sAl.all pyIsDigit) then some "B"
          else
            let letters := sAl.filter (fun c => !c.isDigit)
            match letters with
            | [] => none
            | c :: _ =>
              let cand := pyUpperChar c
              if cand == "A" || cand == "B" || cand == "C" then some cand
              else if letters.length ≤ 2 then some "B"
              else none

/-- `_has_inline_vat_tag` from scanner.py: the trailing tag of a
`PRICE_WITH_VAT_RE` match (its group 2, the last consumed character,
uppercased), else the normalization of the whole text. -/
def has_inline_vat_tag (text : String) : Option String :=
  match reSearch priceWithVatRe text with
  | some (_, j) => (text.data.get? (j - 1)).map (fun c => String.mk [c.toUpper])
  | none => normalize_vat_token text

/-! ### Nearby VAT-tag search -/

/-- Horizontal center of a token's box. -/
def tokCx (t : Token) : ℚ := (t.box.x1 + t.box.x2) / 2

/-- Ranking relation of the same-row step: distance of a token's center
from the price center. -/
def distLe (pcx : ℚ) (a b : Token) : Prop :=
  |tokCx a - pcx| ≤ |tokCx b - pcx|

instance (pcx : ℚ) : DecidableRel (distLe pcx) := fun a b =>
  inferInstanceAs (Decidable (|tokCx a - pcx| ≤ |tokCx b - pcx|))

instance (pcx : ℚ) : IsTotal Token (distLe pcx) :=
  ⟨fun a b => le_total _ _⟩

instance (pcx : ℚ) : IsTrans Token (distLe pcx) :=
  ⟨fun _ _ _ h h' => le_trans h h'⟩

/-- The same-row step of `_nearby_vat_tag_for_price_rows`: other tokens of
the row, sorted by horizontal distance from the price center; the first one
whose text normalizes to a tag and that satisfies the geometric conditions
(`vx1 <= px2 + 40` and vertical overlap `>= 0.15`) yields its tag. -/
def sameRowVatSearch (pt : Token) (row : List Token) : Option String :=
  let pcx := (pt.box.x1 + pt.box.x2) / 2
  let neighbors := row.filter (fun t => decide (t ≠ pt))
  let sorted := List.insertionSort (distLe pcx) neighbors
  sorted.findSome? (fun t =>
    (normalize_vat_token t.text).bind (fun v =>
      if t.box.x1 ≤ pt.box.x2 + 40 ∧
          vertical_overlap_ratio pt.box t.box ≥ 3 / 20 then some v else none))

/-- `_nearby_vat_tag_for_price_rows` from scanner.py: same row first, then
up to `searchBelow` rows below, then up to `searchAbove` rows above. -/
def nearby_vat_tag_for_price_rows (pt : Token) (rows : List (List Token))
    (ridx : Nat) (searchAbove : Nat := 3) (searchBelow : Nat := 1) :
    Option String :=
  let pb := pt.box
  let ph := max 1 (pb.y2 - pb.y1)
  match sameRowVatSearch pt (rows.getD ridx []) with
  | some v => some v
  | none =>
    let belowIdxs := ((List.range searchBelow).map (fun d => ridx + d + 1)).filter
      (fun rr => decide (rr < rows.length))
    match belowIdxs.findSome? (fun rr => (rows.getD rr []).findSome? (fun t =>
        (normalize_vat_token t.text).bind (fun v =>
          let cx := tokCx t
          if pb.x1 - 40 ≤ cx ∧ cx ≤ pb.x2 + 40 ∧ 0 ≤ t.box.y1 - pb.y2 ∧
              t.box.y1 - pb.y2 ≤ max 8 (3 / 2 * ph) then some v else none))) with
    | some v => some v
    | none =>
      let aboveIdxs := ((List.range searchAbove).map (fun u => u + 1)).filter
        (fun u => decide (u ≤ ridx))
      aboveIdxs.findSome? (fun u => (rows.getD (ridx - u) []).findSome? (fun t =>
        (normalize_vat_token t.text).bind (fun v =>
          let cx := tokCx t
          if pb.x1 - 50 ≤ cx ∧ cx ≤ pb.x2 + 50 ∧ 0 ≤ pb.y1 - t.box.y2 ∧
              pb.y1 - t.box.y2 ≤ max 12 (9 / 5 * ph * (u : ℚ)) then some v
          else none)))

/-! ### Name association -/

/-- `_is_unit_price_context`: the row's texts joined with spaces match the
unit-price pattern. -/
def is_unit_price_context (row : List Token) : Bool :=
  unitSearchB (String.intercalate " " (row.map Token.text))

/-- ASCII upper-casing of a string (the arguments of the `EUR`/`€`
comparison are ASCII or the euro sign). -/
def asciiUpperStr (s : String) : String := String.mk (s.data.map Char.toUpper)

/-- `_is_bad_name` from scanner.py. -/
def is_bad_name (name : String) : Bool :=
  let n := String.mk (pyStripL name.data)
  if n.isEmpty then true
  else if asciiUpperStr n == "EUR" || asciiUpperStr n == "€" then true
  else (reSearch badNameKeywordsRe n).isSome

/-- `_build_name_from_left_tokens` from scanner.py: join the non-ignored,
non-empty trimmed texts with single spaces. -/
def build_name_from_left_tokens (tokens : List Token) : String :=
  String.mk (pyStripL (String.intercalate " " (tokens.filterMap (fun t =>
    let txt := String.mk (pyStripL t.text.data)
    if txt.isEmpty then none
    else if ignoreNameToken txt then none
    else some txt))).data)

/-- Step 1 of `_find_name_tokens_for_price`: same-row tokens strictly left
of the price (right edge at most `px1 - 2`), not matching the price or
unit-price patterns. -/
def leftSameRowToks (pt : Token) (rows : List (List Token)) (ridx : Nat) :
    List Token :=
  (rows.getD ridx []).filter (fun t =>
    decide (t ≠ pt ∧ t.box.x2 ≤ pt.box.x1 - 2) &&
    !priceSearchB t.text && !unitSearchB t.text)

/-- Step 2 of `_find_name_tokens_for_price` for one row `i` above: the
row's non-price, non-unit tokens whose center is left of
price-center + 35, when there are any. -/
def aboveNameCand (pt : Token) (rows : List (List Token)) (ridx i : Nat) :
    Option (List Token) :=
  let cand := ((rows.getD (ridx - i) []).filter (fun t =>
    !priceSearchB t.text && !unitSearchB t.text)).filter (fun t =>
      decide (tokCx t < (pt.box.x1 + pt.box.x2) / 2 + 35))
  if cand.isEmpty then none else some cand

/-- Step 3 of `_find_name_tokens_for_price`: the immediately preceding
row's non-price tokens with vertical overlap at least 0.05. -/
def prevRowNameCand (pt : Token) (rows : List (List Token)) (ridx : Nat) :
    List Token :=
  if decide (1 ≤ ridx) then
    (rows.getD (ridx - 1) []).filter (fun t =>
      !priceSearchB t.text &&
      decide (vertical_overlap_ratio t.box pt.box ≥ 1 / 20))
  else []

/-- `_find_name_tokens_for_price` from scanner.py: same-row tokens strictly
left of the price; else up to three rows above, the first row with
non-price tokens left of price-center + 35; else the immediately preceding
row's non-price tokens with vertical overlap at least 0.05. -/
def find_name_tokens_for_price (pt : Token) (rows : List (List Token))
    (ridx : Nat) : List Token :=
  if !(leftSameRowToks pt rows ridx).isEmpty then leftSameRowToks pt rows ridx
  else
    match ([1, 2, 3].filter (fun i => decide (i ≤ ridx))).findSome?
        (aboveNameCand pt rows ridx) with
    | some cand => cand
    | none => prevRowNameCand pt rows ridx

/-! ### Row grouping -/

/-- Union bounding box of a list of tokens (coordinate-wise min/max). -/
def unionBBox : List Token → Box
  | [] => ⟨0, 0, 0, 0⟩
  | t :: rest => rest.foldl (fun b u =>
      ⟨min b.x1 u.box.x1, min b.y1 u.box.y1,
       max b.x2 u.box.x2, max b.y2 u.box.y2⟩) t.box

/-- Pre-sort order of `group_rows`: Python `sorted` by the key
`(box.y1, box.x1)`. -/
def leYX (a b : Token) : Prop :=
  a.box.y1 < b.box.y1 ∨ (a.box.y1 = b.box.y1 ∧ a.box.x1 ≤ b.box.x1)

instance : DecidableRel leYX := fun a b =>
  inferInstanceAs (Decidable (_ ∨ _))

instance : IsTotal Token leYX := by
  constructor
  intro a b
  rcases lt_trichotomy a.box.y1 b.box.y1 with h | h | h
  · exact Or.inl (Or.inl h)
  · rcases le_total a.box.x1 b.box.x1 with h' | h'
    · exact Or.inl (Or.inr ⟨h, h'⟩)
    · exact Or.inr (Or.inr ⟨h.symm, h'⟩)
  · exact Or.inr (Or.inl h)

instance : IsTrans Token leYX := by
  constructor
  intro a b c hab hbc
  rcases hab with h1 | ⟨h1, h1'⟩
  · rcases hbc with h2 | ⟨h2, _⟩
    · exact Or.inl (h1.trans h2)
    · exact Or.inl (h2 ▸ h1)
  · rcases hbc with h2 | ⟨h2, h2'⟩
    · exact Or.inl (h1 ▸ h2)
    · exact Or.inr ⟨h1.trans h2, h1'.trans h2'⟩

/-- In-row order of `group_rows`: Python `list.sort` by the key `box.x1`. -/
def leX (a b : Token) : Prop := a.box.x1 ≤ b.box.x1

instance : DecidableRel leX := fun a b =>
  inferInstanceAs (Decidable (a.box.x1 ≤ b.box.x1))

instance : IsTotal Token leX := ⟨fun a b => le_total _ _⟩

instance : IsTrans Token leX := ⟨fun _ _ _ h h' => le_trans h h'⟩

/-- One step of the greedy row clustering: append the token to the first
row whose aggregate bounding box overlaps it vertically by at least the
threshold, else open a new row at the end. -/
def placeTok (thresh : ℚ) : List (List Token) → Token → List (List Token)
  | [], t => [[t]]
  | r :: rs, t =>
    if vertical_overlap_ratio t.box (unionBBox r) ≥ thresh then (r ++ [t]) :: rs
    else r :: placeTok thresh rs t

/-- `group_rows` from scanner.py: sort by `(y1, x1)`, place each token
greedily, then sort each row by `x1`. -/
def group_rows (tokens : List Token) (thresh : ℚ := 9 / 20) :
    List (List Token) :=
  (((List.insertionSort leYX tokens).foldl (placeTok thresh) []).map
    (List.insertionSort leX))

/-! ### Item assembly -/

/-- The price sub-record of an item. -/
structure PriceInfo where
  raw : String
  value : ℚ
  currency : String
  vatTag : String
  deriving DecidableEq, Repr

/-- A purchase line item as produced by `build_items_from_rows`. -/
structure Item where
  rowIndex : Nat
  name : String
  nameBox : Box
  price : PriceInfo
  priceBox : Box
  confidence : Option ℚ
  deriving DecidableEq, Repr

/-- The slice of a character list between positions `i` and `j`
(the text of a regex match). -/
def sliceL (A : List Char) (i j : Nat) : List Char := (A.drop i).take (j - i)

/-- VAT-tag resolution for a price candidate, as in
`build_items_from_rows`: the inline step first, the nearby search only
when it yields nothing. -/
def resolveVatTag (pt : Token) (rows : List (List Token)) (ridx : Nat) :
    Option String :=
  match has_inline_vat_tag pt.text with
  | some v => some v
  | none => nearby_vat_tag_for_price_rows pt rows ridx

/-- The joined, validated name text of a price candidate. -/
def candName (pt : Token) (rows : List (List Token)) (ridx : Nat) : String :=
  build_name_from_left_tokens (find_name_tokens_for_price pt rows ridx)

/-- The quantity-only rejection test: `QTY_ONLY_RE` matches and the name
has at most three whitespace-separated words. -/
def qtyShort (name : String) : Bool :=
  qtyMatchB name &&
    decide (((name.split (fun c => pyIsWs c)).filter
      (fun w => !w.isEmpty)).length ≤ 3)

/-- Processing of a single price candidate inside the loop of
`build_items_from_rows`: resolve the VAT tag, skip unit-price contexts,
resolve and validate the name, parse the matched price substring, and
build the item; `none` models the loop's `continue`s. -/
def itemForCandidate (rows : List (List Token)) (ridx : Nat)
    (row : List Token) (pt : Token) : Option Item :=
  match resolveVatTag pt rows ridx with
  | none => none
  | some vat =>
    if is_unit_price_context row || unitSearchB pt.text then none
    else if (find_name_tokens_for_price pt rows ridx).isEmpty then none
    else if is_bad_name (candName pt rows ridx) then none
    else if qtyShort (candName pt rows ridx) then none
    else
      match reSearch priceRe pt.text with
      | none => none
      | some (i, j) =>
        match parse_price_value (String.mk (sliceL pt.text.data i j)) with
        | (none, _) => none
        | (some value, _) =>
          some
            { rowIndex := ridx
              name := candName pt rows ridx
              nameBox := unionBBox (find_name_tokens_for_price pt rows ridx)
              price :=
                { raw := String.mk (sliceL pt.text.data i j), value := value,
                  currency := "EUR", vatTag := vat }
              priceBox := pt.box
              confidence := pt.score }

/-- The items produced by one row: each token matching the price pattern
is a candidate. -/
def rowItems (rows : List (List Token)) (ridx : Nat) (row : List Token) :
    List Item :=
  (row.filter (fun t => priceSearchB t.text)).filterMap
    (itemForCandidate rows ridx row)

/-- The enumerated loop of `build_items_from_rows`. -/
def buildItemsAux (rows : List (List Token)) : Nat → List (List Token) →
    List Item
  | _, [] => []
  | ridx, row :: rest => rowItems rows ridx row ++ buildItemsAux rows (ridx + 1) rest

/-- `build_items_from_rows` from scanner.py. -/
def build_items_from_rows (rows : List (List Token)) : List Item :=
  buildItemsAux rows 0 rows

/-! ### Token deduplication (from `process_image`) -/

/-- Bool substring test (Python `in` on strings). -/
def isSubChars (needle hay : List Char) : Bool :=
  (List.range (hay.length + 1)).any (fun i =>
    (hay.drop i).take needle.length == needle)

/-- The skip condition of the dedup loop in `process_image`: some already
accepted token overlaps the new one vertically by more than 0.6 and either
the trimmed texts are equal or the new token's trimmed text occurs in the
accepted one's text and the accepted text is strictly longer. -/
def dedupSkip (t : Token) (acc : List Token) : Bool :=
  acc.any (fun u =>
    decide (vertical_overlap_ratio t.box u.box > 3 / 5) &&
    (pyStripL t.text.data == pyStripL u.text.data ||
      (isSubChars (pyStripL t.text.data) u.text.data &&
        decide (t.text.length < u.text.length))))

/-- The dedup pass of `process_image`. -/
def dedupTokens (ts : List Token) : List Token :=
  ts.foldl (fun acc t => if dedupSkip t acc then acc else acc ++ [t]) []

/-! ### Properties of the vertical overlap ratio -/

theorem vorInterLen_comm (a b : Box) : vorInterLen a b = vorInterLen b a := by
  unfold vorInterLen
  rw [min_comm a.y2 b.y2, max_comm a.y1 b.y1]

theorem vorUnionLen_comm (a b : Box) : vorUnionLen a b = vorUnionLen b a := by
  unfold vorUnionLen
  rw [vorInterLen_comm, add_comm]

theorem vor_comm (a b : Box) :
    vertical_overlap_ratio a b = vertical_overlap_ratio b a := by
  unfold vertical_overlap_ratio
  rw [vorInterLen_comm, vorUnionLen_comm]

theorem vorInterLen_nonneg (a b : Box) : 0 ≤ vorInterLen a b :=
  le_max_left _ _

theorem vorInterLen_le_left (a b : Box) (ha : a.y1 ≤ a.y2) :
    vorInterLen a b ≤ a.y2 - a.y1 :=
  max_le (sub_nonneg.mpr ha)
    (sub_le_sub (min_le_left _ _) (le_max_left _ _))

theorem vorInterLen_le_right (a b : Box) (hb : b.y1 ≤ b.y2) :
    vorInterLen a b ≤ b.y2 - b.y1 :=
  max_le (sub_nonneg.mpr hb)
    (sub_le_sub (min_le_right _ _) (le_max_right _ _))

theorem vor_nonneg (a b : Box) : 0 ≤ vertical_overlap_ratio a b := by
  unfold vertical_overlap_ratio
  split
  · exact div_nonneg (vorInterLen_nonneg a b) (by linarith)
  · exact le_refl 0

theorem vor_le_one (a b : Box) (ha : a.y1 ≤ a.y2) (hb : b.y1 ≤ b.y2) :
    vertical_overlap_ratio a b ≤ 1 := by
  unfold vertical_overlap_ratio
  split
  · rename_i h
    rw [div_le_one h]
    have h1 := vorInterLen_le_left a b ha
    have h2 := vorInterLen_le_right a b hb
    unfold vorUnionLen at h ⊢
    linarith
  · norm_num

/-- C10: for boxes whose y-coordinates satisfy `y1 ≤ y2`,
`vertical_overlap_ratio` is total — the zero-union case returns `0`
instead of dividing — its value lies in `[0, 1]`, and it is symmetric. -/
theorem zicount_c10_overlap_total_bounded_symm (a b : Box)
    (ha : a.y1 ≤ a.y2) (hb : b.y1 ≤ b.y2) :
    (¬ vorUnionLen a b > 0 → vertical_overlap_ratio a b = 0) ∧
    0 ≤ vertical_overlap_ratio a b ∧ vertical_overlap_ratio a b ≤ 1 ∧
    vertical_overlap_ratio a b = vertical_overlap_ratio b a := by
  refine ⟨fun h => ?_, vor_nonneg a b, vor_le_one a b ha hb, vor_comm a b⟩
  unfold vertical_overlap_ratio
  simp [h]

/-- Witness for C10 at concrete boxes. -/
theorem zicount_c10_witness :
    (¬ vorUnionLen ⟨0, 0, 1, 2⟩ ⟨0, 1, 1, 3⟩ > 0 →
      vertical_overlap_ratio ⟨0, 0, 1, 2⟩ ⟨0, 1, 1, 3⟩ = 0) ∧
    0 ≤ vertical_overlap_ratio ⟨0, 0, 1, 2⟩ ⟨0, 1, 1, 3⟩ ∧
    vertical_overlap_ratio ⟨0, 0, 1, 2⟩ ⟨0, 1, 1, 3⟩ ≤ 1 ∧
    vertical_overlap_ratio ⟨0, 0, 1, 2⟩ ⟨0, 1, 1, 3⟩ =
      vertical_overlap_ratio ⟨0, 1, 1, 3⟩ ⟨0, 0, 1, 2⟩ :=
  zicount_c10_overlap_total_bounded_symm ⟨0, 0, 1, 2⟩ ⟨0, 1, 1, 3⟩
    (by norm_num) (by norm_num)

/-! ### C1: the end-to-end single-row example -/

/-- The name token of the end-to-end test vector. -/
def c1Name : Token := ⟨"Milch", some (9 / 10), ⟨0, 0, 80, 20⟩⟩

/-- The price token of the end-to-end test vector. -/
def c1Price : Token := ⟨"2,49", some (19 / 20), ⟨200, 0, 240, 20⟩⟩

/-- The VAT-tag token of the end-to-end test vector. -/
def c1Tag : Token := ⟨"A", some (9 / 10), ⟨245, 0, 255, 20⟩⟩

/-- The token list of the end-to-end test vector: a name token, a price
token and a VAT-tag token on one visual line. -/
def c1Tokens : List Token := [c1Name, c1Price, c1Tag]

set_option maxRecDepth 4000 in
/-- C1: running the pipeline (row grouping followed by item assembly) on
the single-row token list `[("Milch", (0,0,80,20), 0.9),
("2,49", (200,0,240,20), 0.95), ("A", (245,0,255,20), 0.9)]` yields
exactly one item, whose name is "Milch", whose price value is 2.49 and
whose VAT tag is "A". -/
theorem zicount_c1_end_to_end :
    (build_items_from_rows (group_rows c1Tokens)).map
      (fun it => (it.name, it.price.value, it.price.vatTag)) =
    [("Milch", 249 / 100, "A")] := by
  decide

/-! ### Membership lemmas for the regex engine -/

theorem mem_reSeq {a b : Re} {A : List Char} {i j : Nat} :
    j ∈ reSeq a b A i ↔ ∃ k, k ∈ a A i ∧ j ∈ b A k := by
  simp [reSeq, List.mem_flatMap]

theorem mem_reCls_ex {p : Char → Bool} {A : List Char} {i j : Nat}
    (h : j ∈ reCls p A i) :
    j = i + 1 ∧ ∃ c, A.get? i = some c ∧ p c = true := by
  unfold reCls at h
  rcases hg : A.get? i with _ | c
  · rw [hg] at h
    simp at h
  · rw [hg] at h
    by_cases hp : p c
    · simp [hp] at h
      exact ⟨h, c, rfl, hp⟩
    · simp [hp] at h

theorem mem_reTest_eq {p : Option Char → Bool} {A : List Char} {i j : Nat}
    (h : j ∈ reTest p A i) : j = i := by
  unfold reTest at h
  split at h
  · simpa using h
  · simp at h

theorem head?_mem {α : Type} {l : List α} {a : α} (h : l.head? = some a) :
    a ∈ l := by
  cases l with
  | nil => simp at h
  | cons x xs =>
    simp at h
    simp [h]

theorem reSearch_mem {r : Re} {s : String} {i j : Nat}
    (h : reSearch r s = some (i, j)) : j ∈ r s.data i := by
  unfold reSearch at h
  rcases List.exists_of_findSome?_eq_some h with ⟨i', _, heq⟩
  rcases hh : (r s.data i').head? with _ | j'
  · rw [hh] at heq
    simp at heq
  · rw [hh] at heq
    simp at heq
    rcases heq with ⟨hi, hj⟩
    rw [← hi, ← hj]
    exact head?_mem hh

/-- The last consumed character of a `PRICE_WITH_VAT_RE` match is its
group 2: a letter among `A`, `B`, `C` in either case. -/
theorem pwv_tag_char {A : List Char} {i j : Nat}
    (h : j ∈ priceWithVatRe A i) :
    ∃ c, A.get? (j - 1) = some c ∧
      (c = 'A' ∨ c = 'B' ∨ c = 'C' ∨ c = 'a' ∨ c = 'b' ∨ c = 'c') := by
  unfold priceWithVatRe at h
  rcases mem_reSeq.mp h with ⟨k, _, h2⟩
  rcases mem_reSeq.mp h2 with ⟨k2, hcls, htest⟩
  have hj := mem_reTest_eq htest
  rcases mem_reCls_ex hcls with ⟨hk2, c, hget, hp⟩
  subst hj
  subst hk2
  refine ⟨c, hget, ?_⟩
  revert hp
  simp only [Bool.or_eq_true, beq_iff_eq]
  tauto

/-! ### C2: the inline step of tag resolution -/

/-- C2 counterexample: the price text "8,00" has no trailing A/B/C letter
(the price-with-tag pattern does not match), yet the inline step returns
the tag "B", produced by normalizing the whole text through the 8→B
confusable mapping. -/
theorem zicount_c2_counterexample :
    reSearch priceWithVatRe "8,00" = none ∧
    has_inline_vat_tag "8,00" = some "B" := by
  decide

/-- C2 (amended): when the price-with-tag pattern matches, the inline step
returns the trailing A/B/C letter (in either case) uppercased; when the
pattern does not match, the inline step instead returns the normalization
of the whole text, and item assembly proceeds to the nearby search only
when that also yields nothing. -/
theorem zicount_c2_inline_amended (s : String) :
    (∀ i j, reSearch priceWithVatRe s = some (i, j) →
      ∃ c, s.data.get? (j - 1) = some c ∧
        (c = 'A' ∨ c = 'B' ∨ c = 'C' ∨ c = 'a' ∨ c = 'b' ∨ c = 'c') ∧
        has_inline_vat_tag s = some (String.mk [c.toUpper])) ∧
    (reSearch priceWithVatRe s = none →
      has_inline_vat_tag s = normalize_vat_token s) ∧
    (∀ (pt : Token) (rows : List (List Token)) (ridx : Nat), pt.text = s →
      (∀ v, has_inline_vat_tag s = some v → resolveVatTag pt rows ridx = some v) ∧
      (has_inline_vat_tag s = none →
        resolveVatTag pt rows ridx = nearby_vat_tag_for_price_rows pt rows ridx)) := by
  refine ⟨?_, ?_, ?_⟩
  · intro i j hsearch
    rcases pwv_tag_char (reSearch_mem hsearch) with ⟨c, hget, habc⟩
    refine ⟨c, hget, habc, ?_⟩
    unfold has_inline_vat_tag
    rw [hsearch]
    show (s.data.get? (j - 1)).map (fun c => String.mk [c.toUpper]) =
      some (String.mk [c.toUpper])
    rw [hget]
    rfl
  · intro hnone
    unfold has_inline_vat_tag
    rw [hnone]
  · intro pt rows ridx hs
    subst hs
    constructor
    · intro v hv
      unfold resolveVatTag
      rw [hv]
    · intro hv
      unfold resolveVatTag
      rw [hv]

/-- Witness for C2 (amended) at the concrete text "2,49 A". -/
theorem zicount_c2_witness :
    ∃ c, "2,49 A".data.get? 5 = some c ∧
      (c = 'A' ∨ c = 'B' ∨ c = 'C' ∨ c = 'a' ∨ c = 'b' ∨ c = 'c') ∧
      has_inline_vat_tag "2,49 A" = some (String.mk [c.toUpper]) :=
  (zicount_c2_inline_amended "2,49 A").1 0 6 (by decide)

/-! ### C8: token deduplication -/

/-- C8: a new token is dropped exactly when some already accepted token
overlaps it vertically by more than 0.6 and the trimmed texts are equal,
or the new token's trimmed text occurs in the accepted token's text and
the accepted text is strictly longer; in particular two tokens with
overlap above 0.6 and identical trimmed texts collapse to the first. -/
theorem zicount_c8_dedup :
    (∀ (t : Token) (acc : List Token),
      dedupSkip t acc = true ↔
        ∃ u ∈ acc, vertical_overlap_ratio t.box u.box > 3 / 5 ∧
          (pyStripL t.text.data = pyStripL u.text.data ∨
            (isSubChars (pyStripL t.text.data) u.text.data = true ∧
              t.text.length < u.text.length))) ∧
    (∀ a b : Token, vertical_overlap_ratio b.box a.box > 3 / 5 →
      pyStripL a.text.data = pyStripL b.text.data →
      dedupTokens [a, b] = [a]) := by
  constructor
  · intro t acc
    unfold dedupSkip
    simp [List.any_eq_true, Bool.and_eq_true, Bool.or_eq_true,
      decide_eq_true_eq]
  · intro a b hvor hstrip
    have hskipb : dedupSkip b [a] = true := by
      unfold dedupSkip
      simp only [List.any_cons, List.any_nil, Bool.or_false,
        Bool.and_eq_true, Bool.or_eq_true, decide_eq_true_eq, beq_iff_eq]
      exact ⟨hvor, Or.inl hstrip.symm⟩
    show (if dedupSkip b [a] = true then [a] else [a] ++ [b]) = [a]
    rw [hskipb]
    simp

/-! ### C4: VAT-token normalization -/

/-- C4 counterexample: for the input `" "` (one space) the cleaned
(mark-stripped, non-alphanumeric-removed) string is empty and the original
text contains a non-digit character, so the claim demands the tag "B";
the function instead returns `none`, because it returns early when the
whitespace-stripped text is empty. -/
theorem zicount_c4_counterexample :
    ((nfkdStripMarksL " ".data).filter keepAlnum = []) ∧
    (∃ c ∈ " ".data, pyIsDigit c = false) ∧
    normalize_vat_token " " = none := by
  decide

/-- C4 (amended): the vectors `"A"→"A"`, `"8"→"B"`, Greek beta `"Β"→"B"`
and `""→none` hold; and for every input whose whitespace-stripped text is
non-empty and whose cleaned (mark-stripped, non-alphanumeric-removed)
string is empty, normalization returns "B" exactly when the decomposed,
mark-stripped string contains a non-digit character. -/
theorem zicount_c4_normalize_amended :
    (normalize_vat_token "A" = some "A" ∧ normalize_vat_token "8" = some "B" ∧
     normalize_vat_token "Β" = some "B" ∧ normalize_vat_token "" = none) ∧
    (∀ txt : String, pyStripL txt.data ≠ [] →
      (nfkdStripMarksL (pyStripL txt.data)).filter keepAlnum = [] →
      (normalize_vat_token txt = some "B" ↔
        (nfkdStripMarksL (pyStripL txt.data)).any (fun c => !pyIsDigit c) = true)) := by
  constructor
  · exact ⟨by decide, by decide, by decide, by decide⟩
  · intro txt hne hcl
    have h0 : txt.data.isEmpty = false := by
      cases htxt : txt.data.isEmpty
      · rfl
      · exfalso
        have he : txt.data = [] := List.isEmpty_iff.mp htxt
        rw [he] at hne
        exact hne rfl
    have h1 : (pyStripL txt.data).isEmpty = false := by
      cases hh : (pyStripL txt.data).isEmpty
      · rfl
      · exact absurd (List.isEmpty_iff.mp hh) hne
    unfold normalize_vat_token
    simp only [h0, h1, hcl, Bool.false_eq_true, if_false, List.isEmpty_nil,
      if_true]
    cases hany : (nfkdStripMarksL (pyStripL txt.data)).any (fun c => !pyIsDigit c)
    · simp [hany]
    · simp [hany]

/-- Witness for C4 (amended) at the concrete input ".". -/
theorem zicount_c4_witness :
    normalize_vat_token "." = some "B" ↔
      (nfkdStripMarksL (pyStripL ".".data)).any (fun c => !pyIsDigit c) = true :=
  (zicount_c4_normalize_amended).2 "." (by decide) (by decide)

/-! ### C5: the same-row step of the nearby tag search -/

/-- A price token far to the right of a resolvable tag token. -/
def c5Price : Token := ⟨"9,99", none, ⟨200, 0, 240, 20⟩⟩

/-- A tag token whose left edge is 240px away from the price's right
edge. -/
def c5Tag : Token := ⟨"A", none, ⟨0, 0, 10, 20⟩⟩

/-- C5 counterexample: the same-row step accepts a token whose left edge
is 240px away from (to the left of) the price token's right edge — the
code only bounds `vx1 <= px2 + 40` on one side — so a token more than
40px away does yield a same-row tag, contrary to the claim. -/
theorem zicount_c5_counterexample :
    sameRowVatSearch c5Price [c5Price, c5Tag] = some "A" ∧
    nearby_vat_tag_for_price_rows c5Price [[c5Price, c5Tag]] 0 = some "A" ∧
    c5Price.box.x2 - c5Tag.box.x1 > 40 := by
  decide

/-- C5 (amended): the same-row step accepts a token exactly under the
code's conditions — its text resolves to a tag, its vertical-overlap ratio
with the price box is at least 0.15, and its left edge is at most 40px to
the right of the price's right edge (`vx1 ≤ px2 + 40`; positions
arbitrarily far to the left are allowed).  In particular no token whose
left edge is more than 40px to the right of the price's right edge yields
a same-row tag, and a same-row tag short-circuits the rest of the nearby
search. -/
theorem zicount_c5_same_row_amended (pt : Token) (row : List Token) :
    (∀ v, sameRowVatSearch pt row = some v →
      ∃ t, t ∈ row ∧ t ≠ pt ∧ normalize_vat_token t.text = some v ∧
        t.box.x1 ≤ pt.box.x2 + 40 ∧
        vertical_overlap_ratio pt.box t.box ≥ 3 / 20) ∧
    ((∀ t ∈ row, t ≠ pt → ∀ v, normalize_vat_token t.text = some v →
        ¬(t.box.x1 ≤ pt.box.x2 + 40 ∧
          vertical_overlap_ratio pt.box t.box ≥ 3 / 20)) →
      sameRowVatSearch pt row = none) ∧
    (∀ (rows : List (List Token)) (ridx : Nat) (v : String),
      sameRowVatSearch pt (rows.getD ridx []) = some v →
      nearby_vat_tag_for_price_rows pt rows ridx = some v) := by
  refine ⟨?_, ?_, ?_⟩
  · intro v h
    unfold sameRowVatSearch at h
    rcases List.exists_of_findSome?_eq_some h with ⟨t, hmem, hft⟩
    have hmem' : t ∈ row.filter (fun t => decide (t ≠ pt)) :=
      (List.perm_insertionSort _ _).mem_iff.mp hmem
    rcases List.mem_filter.mp hmem' with ⟨hrow, hne⟩
    have hne' : t ≠ pt := of_decide_eq_true hne
    rcases Option.bind_eq_some.mp hft with ⟨w, hw, hg⟩
    by_cases hc : t.box.x1 ≤ pt.box.x2 + 40 ∧
        vertical_overlap_ratio pt.box t.box ≥ 3 / 20
    · rw [if_pos hc] at hg
      cases hg
      exact ⟨t, hrow, hne', hw, hc.1, hc.2⟩
    · rw [if_neg hc] at hg
      cases hg
  · intro hall
    unfold sameRowVatSearch
    apply List.findSome?_eq_none_iff.mpr
    intro t hmem
    have hmem' : t ∈ row.filter (fun t => decide (t ≠ pt)) :=
      (List.perm_insertionSort _ _).mem_iff.mp hmem
    rcases List.mem_filter.mp hmem' with ⟨hrow, hne⟩
    have hne' : t ≠ pt := of_decide_eq_true hne
    cases hn : normalize_vat_token t.text with
    | none => simp [hn]
    | some w =>
      simp only [hn, Option.some_bind]
      rw [if_neg (hall t hrow hne' w hn)]
  · intro rows ridx v h
    unfold nearby_vat_tag_for_price_rows
    simp only [h]

/-- Witness for C5 (amended): the accepting case on the end-to-end row. -/
theorem zicount_c5_witness :
    ∃ t, t ∈ c1Tokens ∧ t ≠ c1Price ∧ normalize_vat_token t.text = some "A" ∧
      t.box.x1 ≤ c1Price.box.x2 + 40 ∧
      vertical_overlap_ratio c1Price.box t.box ≥ 3 / 20 :=
  (zicount_c5_same_row_amended c1Price c1Tokens).1 "A"
    (by decide)

/-- Two duplicate detections of the same text on overlapping boxes. -/
def dupTokA : Token := ⟨"Milch", none, ⟨0, 0, 80, 20⟩⟩

/-- A re-detection of `dupTokA` with shifted box and padded text. -/
def dupTokB : Token := ⟨" Milch ", none, ⟨0, 1, 80, 21⟩⟩

/-- Witness for C8: the two-token collapse at concrete tokens. -/
theorem zicount_c8_witness : dedupTokens [dupTokA, dupTokB] = [dupTokA] :=
  zicount_c8_dedup.2 dupTokA dupTokB (by decide) (by decide)

/-! ### C3: price parsing -/

/-- A position of `l` holds `some c`, hence is inside `l`. -/
theorem get?_lt_length {l : List Char} {j : Nat} {c : Char}
    (h : l.get? j = some c) : j < l.length := by
  by_contra hlen
  push_neg at hlen
  rw [List.get?_len_le hlen] at h
  exact Option.noConfusion h

theorem lastIdx?_none_get (l : List Char) (c : Char)
    (h : lastIdx? l c = none) : ∀ j, l.get? j ≠ some c := by
  induction l with
  | nil => intro j; simp
  | cons a as ih =>
    intro j
    unfold lastIdx? at h
    cases h' : lastIdx? as c with
    | some r => rw [h'] at h; exact Option.noConfusion h
    | none =>
      rw [h'] at h
      by_cases hac : a = c
      · rw [if_pos hac] at h; exact Option.noConfusion h
      · rw [if_neg hac] at h
        cases j with
        | zero =>
          intro hh
          exact hac (Option.some.inj hh)
        | succ j' => exact ih h' j'

theorem lastIdx?_get {l : List Char} {c : Char} {i : Nat}
    (h : lastIdx? l c = some i) : l.get? i = some c := by
  induction l generalizing i with
  | nil => exact Option.noConfusion h
  | cons a as ih =>
    unfold lastIdx? at h
    cases h' : lastIdx? as c with
    | some r =>
      rw [h'] at h
      cases h
      exact ih h'
    | none =>
      rw [h'] at h
      by_cases hac : a = c
      · rw [if_pos hac] at h
        cases h
        simpa using hac
      · rw [if_neg hac] at h
        exact Option.noConfusion h

theorem lastIdx?_last {l : List Char} {c : Char} {i : Nat}
    (h : lastIdx? l c = some i) : ∀ j, i < j → l.get? j ≠ some c := by
  induction l generalizing i with
  | nil => exact Option.noConfusion h
  | cons a as ih =>
    unfold lastIdx? at h
    cases h' : lastIdx? as c with
    | some r =>
      rw [h'] at h
      cases h
      intro j hj
      cases j with
      | zero => omega
      | succ j' => exact ih h' j' (by omega)
    | none =>
      rw [h'] at h
      by_cases hac : a = c
      · rw [if_pos hac] at h
        cases h
        intro j hj
        cases j with
        | zero => omega
        | succ j' => exact lastIdx?_none_get as c h' j'
      · rw [if_neg hac] at h
        exact Option.noConfusion h

theorem lastIdx?_ge {l : List Char} {c : Char} {i j : Nat}
    (h : lastIdx? l c = some i) (hj : l.get? j = some c) : j ≤ i := by
  induction l generalizing i j with
  | nil => exact Option.noConfusion h
  | cons a as ih =>
    unfold lastIdx? at h
    cases h' : lastIdx? as c with
    | some r =>
      rw [h'] at h
      cases h
      cases j with
      | zero => omega
      | succ j' => exact Nat.succ_le_succ (ih h' hj)
    | none =>
      rw [h'] at h
      by_cases hac : a = c
      · rw [if_pos hac] at h
        cases h
        cases j with
        | zero => omega
        | succ j' => exact absurd hj (lastIdx?_none_get as c h' j')
      · rw [if_neg hac] at h
        exact Option.noConfusion h

/-- The claim's locale condition "a comma occurs after the last dot": some
comma position is followed by no dot. -/
def CommaAfterLastDot (l : List Char) : Prop :=
  ∃ i, i < l.length ∧ l.get? i = some ',' ∧
    ∀ j, j < l.length → i < j → l.get? j ≠ some '.'

/-- The claim's thousands condition: some comma is directly preceded by a
digit and followed by a group of three digits. -/
def CommaBeforeThousands (l : List Char) : Prop :=
  ∃ i c1 c2 c3 c4, l.get? i = some c1 ∧ c1.isDigit = true ∧
    l.get? (i + 1) = some ',' ∧
    l.get? (i + 2) = some c2 ∧ c2.isDigit = true ∧
    l.get? (i + 3) = some c3 ∧ c3.isDigit = true ∧
    l.get? (i + 4) = some c4 ∧ c4.isDigit = true

/-- The claim-side locale condition is exactly the code's comparison of
the two `rfind` results. -/
theorem commaAfterLastDot_iff (l : List Char) :
    CommaAfterLastDot l ↔ idxGT (lastIdx? l ',') (lastIdx? l '.') = true := by
  constructor
  · rintro ⟨i, _, hci, hnod⟩
    cases hc : lastIdx? l ',' with
    | none => exact absurd hci (lastIdx?_none_get l ',' hc i)
    | some ic =>
      have hic : i ≤ ic := lastIdx?_ge hc hci
      cases hd : lastIdx? l '.' with
      | none => simp [idxGT]
      | some id =>
        have hdg : l.get? id = some '.' := lastIdx?_get hd
        have hidlen : id < l.length := get?_lt_length hdg
        simp only [idxGT, decide_eq_true_eq]
        by_contra hle
        push_neg at hle
        have hii : i < id := by
          rcases Nat.lt_or_ge i id with hlt | hge
          · exact hlt
          · exfalso
            have : i = id := by omega
            rw [← this] at hdg
            rw [hci] at hdg
            exact (by decide : (',' : Char) ≠ '.') (Option.some.inj hdg)
        exact hnod id hidlen hii hdg
  · intro h
    cases hc : lastIdx? l ',' with
    | none => rw [hc] at h; simp [idxGT] at h
    | some ic =>
      have hcg := lastIdx?_get hc
      refine ⟨ic, get?_lt_length hcg, hcg, ?_⟩
      intro j _ hij hdj
      cases hd : lastIdx? l '.' with
      | none => exact lastIdx?_none_get l '.' hd j hdj
      | some id =>
        rw [hc, hd] at h
        simp only [idxGT, decide_eq_true_eq] at h
        have := lastIdx?_ge hd hdj
        omega

/-- The claim-side thousands condition is exactly the code's
`re.search(r'\d{1,3}\,\d{3}', s)`. -/
theorem commaBeforeThousands_iff (l : List Char) :
    CommaBeforeThousands l ↔ hasThousandsB l = true := by
  constructor
  · rintro ⟨i, c1, c2, c3, c4, h1, hd1, hcm, h2, hd2, h3, hd3, h4, hd4⟩
    unfold hasThousandsB
    rw [List.any_eq_true]
    refine ⟨i, List.mem_range.mpr (get?_lt_length h1), ?_⟩
    simp only [digitAt, charAt, h1, hcm, h2, h3, h4, hd1, hd2, hd3, hd4,
      Bool.and_self, beq_self_eq_true, Bool.and_true, Bool.true_and]
  · intro h
    unfold hasThousandsB at h
    rw [List.any_eq_true] at h
    rcases h with ⟨i, _, hcond⟩
    rcases hg1 : l.get? i with _ | c1
    · simp [digitAt, ← List.get?_eq_getElem?, hg1] at hcond
    rcases hg3 : l.get? (i + 2) with _ | c2
    · simp [digitAt, ← List.get?_eq_getElem?, hg3] at hcond
    rcases hg4 : l.get? (i + 3) with _ | c3
    · simp [digitAt, ← List.get?_eq_getElem?, hg4] at hcond
    rcases hg5 : l.get? (i + 4) with _ | c4
    · simp [digitAt, ← List.get?_eq_getElem?, hg5] at hcond
    simp only [digitAt, charAt, ← List.get?_eq_getElem?, hg1, hg3, hg4, hg5,
      Bool.and_eq_true, beq_iff_eq] at hcond
    obtain ⟨⟨⟨⟨hb1, hb2⟩, hb3⟩, hb4⟩, hb5⟩ := hcond
    exact ⟨i, c1, c2, c3, c4, hg1, hb1, hb2, hg3, hb3, hg4, hb4, hg5, hb5⟩

/-- A satisfied thousands pattern puts a comma in the string. -/
theorem thousands_contains_comma {l : List Char} (h : hasThousandsB l = true) :
    l.contains ',' = true := by
  rcases (commaBeforeThousands_iff l).mpr h with ⟨i, _, _, _, _, _, _, hcm, _⟩
  exact List.elem_eq_true_of_mem (List.get?_mem hcm)

set_option maxRecDepth 4000 in
/-- C3: parsing follows the locale rule — when a comma occurs after the
last dot, dots are removed and the comma becomes the decimal point; else
when some comma is followed by a 3-digit group (with a digit before it),
commas are stripped as thousands separators; otherwise the comma becomes
the decimal point — the four test vectors hold, and the returned currency
is always "EUR", also on failure. -/
theorem zicount_c3_price_parsing :
    (∀ raw : String, (parse_price_value raw).2 = "EUR") ∧
    (∀ raw : String,
      (CommaAfterLastDot (pyStripL raw.data) →
        (parse_price_value raw).1 =
          firstNumL (replaceAll (removeAll (pyStripL raw.data) '.') ',' '.')) ∧
      (¬ CommaAfterLastDot (pyStripL raw.data) →
        CommaBeforeThousands (pyStripL raw.data) →
        (parse_price_value raw).1 =
          firstNumL (removeAll (pyStripL raw.data) ',')) ∧
      (¬ CommaAfterLastDot (pyStripL raw.data) →
        ¬ CommaBeforeThousands (pyStripL raw.data) →
        (parse_price_value raw).1 =
          firstNumL (replaceAll (pyStripL raw.data) ',' '.'))) ∧
    (parse_price_value "12,99" = (some (1299 / 100), "EUR") ∧
     parse_price_value "1.234,56" = (some (123456 / 100), "EUR") ∧
     parse_price_value "12.99" = (some (1299 / 100), "EUR") ∧
     parse_price_value "abc" = (none, "EUR")) := by
  refine ⟨fun raw => rfl, fun raw => ⟨?_, ?_, ?_⟩, ?_⟩
  · intro h
    have hgt := (commaAfterLastDot_iff (pyStripL raw.data)).mp h
    unfold parse_price_value
    simp only [hgt, if_true]
  · intro hn hth
    have hgt : idxGT (lastIdx? (pyStripL raw.data) ',')
        (lastIdx? (pyStripL raw.data) '.') = false := by
      cases hb : idxGT (lastIdx? (pyStripL raw.data) ',')
          (lastIdx? (pyStripL raw.data) '.')
      · rfl
      · exact absurd ((commaAfterLastDot_iff _).mpr hb) hn
    have hhb := (commaBeforeThousands_iff _).mp hth
    have hcn := thousands_contains_comma hhb
    unfold parse_price_value
    simp only [hgt, Bool.false_eq_true, if_false, hcn, hhb, Bool.and_self,
      if_true]
  · intro hn hnth
    have hgt : idxGT (lastIdx? (pyStripL raw.data) ',')
        (lastIdx? (pyStripL raw.data) '.') = false := by
      cases hb : idxGT (lastIdx? (pyStripL raw.data) ',')
          (lastIdx? (pyStripL raw.data) '.')
      · rfl
      · exact absurd ((commaAfterLastDot_iff _).mpr hb) hn
    have hhb : hasThousandsB (pyStripL raw.data) = false := by
      cases hb : hasThousandsB (pyStripL raw.data)
      · rfl
      · exact absurd ((commaBeforeThousands_iff _).mpr hb) hnth
    unfold parse_price_value
    simp only [hgt, Bool.false_eq_true, if_false, hhb, Bool.and_false,
      if_false]
  · exact ⟨by decide, by decide,
      by decide, by decide⟩

/-- Witness for C3 at "12,99": the comma occurs after the (absent) last
dot, so the comma-decimal branch applies. -/
theorem zicount_c3_witness :
    (parse_price_value "12,99").1 =
      firstNumL (replaceAll (removeAll (pyStripL "12,99".data) '.') ',' '.') :=
  ((zicount_c3_price_parsing).2.1 "12,99").1 ⟨2, by decide, by decide, by decide⟩

/-! ### C9: the row grouper partitions its input -/

theorem placeTok_join_perm (thresh : ℚ) (rows : List (List Token)) (t : Token) :
    (placeTok thresh rows t).flatten.Perm (t :: rows.flatten) := by
  induction rows with
  | nil => simp [placeTok]
  | cons r rs ih =>
    unfold placeTok
    split
    · simp only [List.flatten_cons, List.append_assoc, List.singleton_append]
      exact List.perm_middle
    · simp only [List.flatten_cons]
      exact ((ih.append_left r).trans List.perm_middle)

theorem foldl_placeTok_join_perm (thresh : ℚ) :
    ∀ (l : List Token) (rows : List (List Token)),
      (l.foldl (placeTok thresh) rows).flatten.Perm (l ++ rows.flatten)
  | [], rows => by simp
  | t :: ts, rows => by
    simp only [List.foldl_cons, List.cons_append]
    exact ((foldl_placeTok_join_perm thresh ts (placeTok thresh rows t)).trans
      (((placeTok_join_perm thresh rows t).append_left ts).trans
        List.perm_middle))

theorem placeTok_ne_nil (thresh : ℚ) (rows : List (List Token)) (t : Token)
    (h : ∀ r ∈ rows, r ≠ []) : ∀ r ∈ placeTok thresh rows t, r ≠ [] := by
  induction rows with
  | nil =>
    intro r hr
    simp [placeTok] at hr
    simp [hr]
  | cons r0 rs ih =>
    intro r hr
    unfold placeTok at hr
    split at hr
    · rcases List.mem_cons.mp hr with h1 | h1
      · rw [h1]
        simp
      · exact h r (List.mem_cons_of_mem r0 h1)
    · rcases List.mem_cons.mp hr with h1 | h1
      · exact h r (h1 ▸ List.mem_cons_self r0 rs)
      · exact ih (fun r' hr' => h r' (List.mem_cons_of_mem r0 hr')) r h1

theorem foldl_placeTok_ne_nil (thresh : ℚ) :
    ∀ (l : List Token) (rows : List (List Token)),
      (∀ r ∈ rows, r ≠ []) → ∀ r ∈ l.foldl (placeTok thresh) rows, r ≠ []
  | [], rows, h => h
  | t :: ts, rows, h => by
    simp only [List.foldl_cons]
    exact foldl_placeTok_ne_nil thresh ts (placeTok thresh rows t)
      (placeTok_ne_nil thresh rows t h)

theorem map_sort_join_perm (rows : List (List Token)) :
    ((rows.map (List.insertionSort leX)).flatten).Perm rows.flatten := by
  induction rows with
  | nil => simp
  | cons r rs ih =>
    simp only [List.map_cons, List.flatten_cons]
    exact (List.perm_insertionSort leX r).append ih

/-- C9: for every token list the rows returned by `group_rows` form a
partition of the input — the concatenation of the rows is a permutation
of the input, every row is non-empty — and each row is ordered by
ascending left x-coordinate. -/
theorem zicount_c9_row_partition (tokens : List Token) :
    (group_rows tokens).flatten.Perm tokens ∧
    (∀ row ∈ group_rows tokens, row ≠ []) ∧
    (∀ row ∈ group_rows tokens, row.Pairwise leX) := by
  refine ⟨?_, ?_, ?_⟩
  · unfold group_rows
    refine (map_sort_join_perm _).trans ?_
    refine (foldl_placeTok_join_perm _ _ []).trans ?_
    simp only [List.flatten_nil, List.append_nil]
    exact List.perm_insertionSort leYX tokens
  · intro row hrow
    unfold group_rows at hrow
    rcases List.mem_map.mp hrow with ⟨r', hr', heq⟩
    have hne : r' ≠ [] :=
      foldl_placeTok_ne_nil _ (List.insertionSort leYX tokens) [] (by simp)
        r' hr'
    intro hcontra
    apply hne
    have hlen : (List.insertionSort leX r').length = 0 := by
      rw [heq, hcontra]
      rfl
    rw [(List.perm_insertionSort leX r').length_eq] at hlen
    exact List.eq_nil_of_length_eq_zero hlen
  · intro row hrow
    unfold group_rows at hrow
    rcases List.mem_map.mp hrow with ⟨r', _, hrw⟩
    rw [← hrw]
    exact List.sorted_insertionSort leX r'

/-- Witness for C9 on the end-to-end token list. -/
theorem zicount_c9_witness :
    (group_rows c1Tokens).flatten.Perm c1Tokens ∧
    c1Tokens ≠ [] ∧ c1Tokens.Pairwise leX :=
  ⟨(zicount_c9_row_partition c1Tokens).1,
   (zicount_c9_row_partition c1Tokens).2.1 c1Tokens (by decide),
   (zicount_c9_row_partition c1Tokens).2.2 c1Tokens (by decide)⟩

/-! ### Character bounds for the price pattern

`PRICE_RE` can only consume whitespace, currency marks, digits, separators
and tag letters — never a minus sign.  This is what makes every parsed
price non-negative. -/

/-- No position consumed by the matcher holds `'-'`. -/
def NoMinus (r : Re) : Prop :=
  ∀ A i j, j ∈ r A i → ∀ k c, i ≤ k → k < j → A.get? k = some c → c ≠ '-'

theorem noMinus_eps : NoMinus reEps := by
  intro A i j hj k c hik hkj _
  simp [reEps] at hj
  omega

theorem noMinus_test (p : Option Char → Bool) : NoMinus (reTest p) := by
  intro A i j hj k c hik hkj _
  have := mem_reTest_eq hj
  omega

theorem mem_reTestPrev_eq {p : Option Char → Bool} {A : List Char} {i j : Nat}
    (h : j ∈ reTestPrev p A i) : j = i := by
  unfold reTestPrev at h
  by_cases hp : p (if i = 0 then none else A.get? (i - 1)) = true
  · rw [if_pos hp] at h
    simpa using h
  · rw [if_neg hp] at h
    simp at h

theorem noMinus_testPrev (p : Option Char → Bool) : NoMinus (reTestPrev p) := by
  intro A i j hj k c hik hkj _
  have := mem_reTestPrev_eq hj
  omega

theorem noMinus_cls {p : Char → Bool} (hp : p '-' = false) :
    NoMinus (reCls p) := by
  intro A i j hj k c hik hkj hget
  rcases mem_reCls_ex hj with ⟨hji, c0, hget0, hp0⟩
  have hk : k = i := by omega
  rw [hk, hget0] at hget
  have hc : c0 = c := Option.some.inj hget
  subst hc
  intro hminus
  rw [hminus, hp] at hp0
  exact Bool.noConfusion hp0

theorem noMinus_seq {a b : Re} (ha : NoMinus a) (hb : NoMinus b) :
    NoMinus (reSeq a b) := by
  intro A i j hj k c hik hkj hget
  rcases mem_reSeq.mp hj with ⟨m, hm, hjm⟩
  rcases Nat.lt_or_ge k m with hkm | hkm
  · exact ha A i m hm k c hik hkm hget
  · exact hb A m j hjm k c hkm hkj hget

theorem noMinus_alt {a b : Re} (ha : NoMinus a) (hb : NoMinus b) :
    NoMinus (reAlt a b) := by
  intro A i j hj
  rcases List.mem_append.mp hj with h | h
  · exact ha A i j h
  · exact hb A i j h

theorem noMinus_fail : NoMinus reFail := by
  intro A i j hj
  simp [reFail] at hj

theorem noMinus_opt {a : Re} (ha : NoMinus a) : NoMinus (reOpt a) :=
  noMinus_alt ha noMinus_eps

theorem noMinus_starFuel {a : Re} (ha : NoMinus a) :
    ∀ n, NoMinus (reStarFuel n a) := by
  intro n
  induction n with
  | zero =>
    intro A i j hj k c hik hkj _
    simp [reStarFuel] at hj
    omega
  | succ n ih =>
    intro A i j hj k c hik hkj hget
    unfold reStarFuel at hj
    rcases List.mem_append.mp hj with h | h
    · rcases List.mem_flatMap.mp h with ⟨m, hm, hjm⟩
      rcases List.mem_filter.mp hm with ⟨hma, _⟩
      rcases Nat.lt_or_ge k m with hkm | hkm
      · exact ha A i m hma k c hik hkm hget
      · exact ih A m j hjm k c hkm hkj hget
    · simp at h
      omega

theorem noMinus_star {a : Re} (ha : NoMinus a) : NoMinus (reStar a) := by
  intro A i j hj
  exact noMinus_starFuel ha _ A i j hj

theorem noMinus_seqs {rs : List Re} (h : ∀ r ∈ rs, NoMinus r) :
    NoMinus (reSeqs rs) := by
  induction rs with
  | nil => exact noMinus_eps
  | cons r rs ih =>
    exact noMinus_seq (h r (List.mem_cons_self r rs))
      (ih fun r' hr' => h r' (List.mem_cons_of_mem r hr'))

theorem noMinus_alts {rs : List Re} (h : ∀ r ∈ rs, NoMinus r) :
    NoMinus (reAlts rs) := by
  induction rs with
  | nil => exact noMinus_fail
  | cons r rs ih =>
    exact noMinus_alt (h r (List.mem_cons_self r rs))
      (ih fun r' hr' => h r' (List.mem_cons_of_mem r hr'))

theorem noMinus_chrNC {c : Char} (h : (foldLower '-' == foldLower c) = false) :
    NoMinus (reChrNC c) :=
  noMinus_cls h

theorem noMinus_spaces : NoMinus spacesRe :=
  noMinus_star (noMinus_cls (by decide))

theorem noMinus_digit : NoMinus digitRe :=
  noMinus_cls (by decide)

theorem noMinus_sep : NoMinus sepRe :=
  noMinus_cls (by decide)

theorem noMinus_cur : NoMinus curRe :=
  noMinus_alt (noMinus_cls (by decide))
    (noMinus_seqs (by
      intro r hr
      simp only [List.mem_cons, List.not_mem_nil, or_false] at hr
      rcases hr with rfl | rfl | rfl | rfl | rfl
      · exact noMinus_testPrev _
      · exact noMinus_chrNC (by decide)
      · exact noMinus_chrNC (by decide)
      · exact noMinus_chrNC (by decide)
      · exact noMinus_test _))

theorem noMinus_core : NoMinus coreRe := by
  refine noMinus_alt (noMinus_seqs ?_) (noMinus_seqs ?_)
  · intro r hr
    simp only [List.mem_cons, List.not_mem_nil, or_false] at hr
    rcases hr with rfl | rfl | rfl | rfl | rfl | rfl | rfl
    · exact noMinus_digit
    · exact noMinus_opt noMinus_digit
    · exact noMinus_opt noMinus_digit
    · refine noMinus_star (noMinus_seqs ?_)
      intro r hr
      simp only [List.mem_cons, List.not_mem_nil, or_false] at hr
      rcases hr with rfl | rfl | rfl | rfl
      · exact noMinus_sep
      · exact noMinus_digit
      · exact noMinus_digit
      · exact noMinus_digit
    · exact noMinus_sep
    · exact noMinus_digit
    · exact noMinus_digit
  · intro r hr
    simp only [List.mem_cons, List.not_mem_nil, or_false] at hr
    rcases hr with rfl | rfl | rfl | rfl | rfl
    · exact noMinus_digit
    · exact noMinus_star noMinus_digit
    · exact noMinus_sep
    · exact noMinus_digit
    · exact noMinus_digit

theorem noMinus_priceRe : NoMinus priceRe := by
  refine noMinus_seqs ?_
  intro r hr
  simp only [List.mem_cons, List.not_mem_nil, or_false] at hr
  rcases hr with rfl | rfl | rfl | rfl | rfl | rfl | rfl | rfl
  · exact noMinus_testPrev _
  · exact noMinus_spaces
  · exact noMinus_opt noMinus_cur
  · exact noMinus_spaces
  · exact noMinus_core
  · exact noMinus_spaces
  · exact noMinus_opt noMinus_cur
  · exact noMinus_opt (noMinus_seq noMinus_spaces (noMinus_cls (by decide)))

/-- Characters of a matched slice satisfy the matcher's bound. -/
theorem slice_noMinus {r : Re} (hr : NoMinus r) {A : List Char} {i j : Nat}
    (hj : j ∈ r A i) : ∀ c ∈ sliceL A i j, c ≠ '-' := by
  intro c hc
  unfold sliceL at hc
  rcases List.mem_iff_get?.mp hc with ⟨m, hm⟩
  have hmlen : m < ((A.drop i).take (j - i)).length := get?_lt_length hm
  have hmji : m < j - i := by
    have := List.length_take (j - i) (A.drop i)
    omega
  rw [List.get?_take hmji] at hm
  rw [List.get?_drop] at hm
  exact hr A i j hj (i + m) c (by omega) (by omega) hm

/-! ### Non-negativity of parsed prices -/

theorem natValQ_nonneg (ds : List Char) : 0 ≤ natValQ ds := by
  unfold natValQ
  exact Nat.cast_nonneg _

theorem tryNumAt_nonneg {l : List Char} (hm : ∀ c ∈ l, c ≠ '-') {i : Nat}
    {v : ℚ} (h : tryNumAt l i = some v) : 0 ≤ v := by
  have hneg : charAt l i '-' = false := by
    cases hb : charAt l i '-'
    · rfl
    · exfalso
      unfold charAt at hb
      rw [beq_iff_eq] at hb
      exact hm '-' (List.get?_mem hb) rfl
  unfold tryNumAt at h
  rw [hneg] at h
  simp only [Bool.false_or, Bool.false_eq_true, if_false, one_mul] at h
  split_ifs at h <;>
    first
      | exact Option.noConfusion h
      | (cases h; exact natValQ_nonneg _)
      | (cases h
         exact add_nonneg (natValQ_nonneg _)
           (div_nonneg (natValQ_nonneg _) (by positivity)))

theorem firstNumL_nonneg {l : List Char} (hm : ∀ c ∈ l, c ≠ '-') {v : ℚ}
    (h : firstNumL l = some v) : 0 ≤ v := by
  unfold firstNumL at h
  rcases List.exists_of_findSome?_eq_some h with ⟨i, _, hi⟩
  exact tryNumAt_nonneg hm hi

theorem mem_pyStripL {l : List Char} {c : Char} (h : c ∈ pyStripL l) :
    c ∈ l := by
  unfold pyStripL at h
  rw [List.mem_reverse] at h
  have h1 := (List.dropWhile_sublist (l := (l.dropWhile pyIsWs).reverse)
    (p := pyIsWs)).subset h
  rw [List.mem_reverse] at h1
  exact (List.dropWhile_sublist (l := l) (p := pyIsWs)).subset h1

theorem noMinus_removeAll {l : List Char} (hm : ∀ c ∈ l, c ≠ '-') (a : Char) :
    ∀ c ∈ removeAll l a, c ≠ '-' := by
  intro c hc
  exact hm c (List.mem_filter.mp hc).1

theorem noMinus_replaceAll {l : List Char} (hm : ∀ c ∈ l, c ≠ '-')
    {a b : Char} (hb : b ≠ '-') : ∀ c ∈ replaceAll l a b, c ≠ '-' := by
  intro c hc
  rcases List.mem_map.mp hc with ⟨d, hd, hdc⟩
  by_cases hda : d == a
  · rw [if_pos hda] at hdc
    rw [← hdc]
    exact hb
  · rw [if_neg hda] at hdc
    rw [← hdc]
    exact hm d hd

/-- A parsed price value is non-negative whenever the raw text holds no
minus sign. -/
theorem parse_price_nonneg {raw : String} (hm : ∀ c ∈ raw.data, c ≠ '-')
    {v : ℚ} (h : (parse_price_value raw).1 = some v) : 0 ≤ v := by
  have hs : ∀ c ∈ pyStripL raw.data, c ≠ '-' := fun c hc => hm c (mem_pyStripL hc)
  unfold parse_price_value at h
  simp only [] at h
  split at h
  · exact firstNumL_nonneg
      (noMinus_replaceAll (noMinus_removeAll hs '.') (by decide)) h
  · split at h
    · exact firstNumL_nonneg (noMinus_removeAll hs ',') h
    · exact firstNumL_nonneg (noMinus_replaceAll hs (by decide)) h

/-! ### The resolved VAT tag is always one of A, B, C -/

theorem normalize_mem_ABC {txt : String} {v : String}
    (h : normalize_vat_token txt = some v) :
    v = "A" ∨ v = "B" ∨ v = "C" := by
  unfold normalize_vat_token at h
  split at h
  · exact Option.noConfusion h
  · dsimp only at h
    split at h
    · exact Option.noConfusion h
    · split at h
      · split at h
        · cases h
          right
          left
          rfl
        · exact Option.noConfusion h
      · split at h
        · rename_i c hfind
          have hp := List.find?_some hfind
          simp only [Bool.or_eq_true, beq_iff_eq] at hp
          cases h
          rcases hp with (rfl | rfl) | rfl
          · left
            rfl
          · right
            left
            rfl
          · right
            right
            rfl
        · split at h
          · cases h
            right
            left
            rfl
          · split at h
            · exact Option.noConfusion h
            · rename_i letters c rest heq
              split at h
              · rename_i hcand
                cases h
                simp only [Bool.or_eq_true, beq_iff_eq] at hcand
                rcases hcand with (hc | hc) | hc
                · left
                  exact hc
                · right
                  left
                  exact hc
                · right
                  right
                  exact hc
              · split at h
                · cases h
                  right
                  left
                  rfl
                · exact Option.noConfusion h

theorem inline_mem_ABC {txt v : String} (h : has_inline_vat_tag txt = some v) :
    v = "A" ∨ v = "B" ∨ v = "C" := by
  unfold has_inline_vat_tag at h
  split at h
  · rename_i i j heq
    rcases pwv_tag_char (reSearch_mem heq) with ⟨c, hget, habc⟩
    rw [hget] at h
    simp only [Option.map_some'] at h
    cases h
    rcases habc with rfl | rfl | rfl | rfl | rfl | rfl
    · left
      rfl
    · right
      left
      rfl
    · right
      right
      rfl
    · left
      rfl
    · right
      left
      rfl
    · right
      right
      rfl
  · exact normalize_mem_ABC h

theorem bind_guard_eq_some {o : Option String} {P : Prop} [Decidable P]
    {v : String}
    (h : (o.bind (fun w => if P then some w else none)) = some v) :
    o = some v := by
  rcases ho : o with _ | w
  · rw [ho] at h
    exact Option.noConfusion h
  · rw [ho] at h
    simp only [Option.some_bind] at h
    split at h
    · exact h
    · exact Option.noConfusion h

theorem sameRow_mem_ABC {pt : Token} {row : List Token} {v : String}
    (h : sameRowVatSearch pt row = some v) : v = "A" ∨ v = "B" ∨ v = "C" := by
  unfold sameRowVatSearch at h
  rcases List.exists_of_findSome?_eq_some h with ⟨t, _, hf⟩
  exact normalize_mem_ABC (bind_guard_eq_some hf)

theorem nearby_mem_ABC {pt : Token} {rows : List (List Token)} {ridx : Nat}
    {v : String} (h : nearby_vat_tag_for_price_rows pt rows ridx = some v) :
    v = "A" ∨ v = "B" ∨ v = "C" := by
  unfold nearby_vat_tag_for_price_rows at h
  split at h
  · rename_i w heq
    cases h
    exact sameRow_mem_ABC heq
  · dsimp only at h
    split at h
    · rename_i w heq
      cases h
      rcases List.exists_of_findSome?_eq_some heq with ⟨rr, _, hrow⟩
      rcases List.exists_of_findSome?_eq_some hrow with ⟨t, _, hf⟩
      exact normalize_mem_ABC (bind_guard_eq_some hf)
    · rcases List.exists_of_findSome?_eq_some h with ⟨u, _, hrow⟩
      rcases List.exists_of_findSome?_eq_some hrow with ⟨t, _, hf⟩
      exact normalize_mem_ABC (bind_guard_eq_some hf)

theorem resolveVat_mem_ABC {pt : Token} {rows : List (List Token)}
    {ridx : Nat} {v : String} (h : resolveVatTag pt rows ridx = some v) :
    v = "A" ∨ v = "B" ∨ v = "C" := by
  unfold resolveVatTag at h
  split at h
  · rename_i w heq
    cases h
    exact inline_mem_ABC heq
  · exact nearby_mem_ABC h

/-! ### Item assembly: membership and field facts -/

theorem mem_getD_flatten {rows : List (List Token)} {n : Nat} {t : Token}
    (h : t ∈ rows.getD n []) : t ∈ rows.flatten := by
  rcases hg : rows.get? n with _ | row
  · rw [List.getD_eq_getElem?_getD, ← List.get?_eq_getElem?, hg] at h
    simp at h
  · rw [List.getD_eq_getElem?_getD, ← List.get?_eq_getElem?, hg] at h
    simp only [Option.getD_some] at h
    exact List.mem_flatten.mpr ⟨row, List.get?_mem hg, h⟩

theorem find_name_subset (pt : Token) (rows : List (List Token)) (ridx : Nat) :
    ∀ t ∈ find_name_tokens_for_price pt rows ridx, t ∈ rows.flatten := by
  intro t ht
  unfold find_name_tokens_for_price at ht
  split at ht
  · exact mem_getD_flatten (List.mem_filter.mp ht).1
  · split at ht
    · rename_i cand heq
      rcases List.exists_of_findSome?_eq_some heq with ⟨i, _, hsome⟩
      unfold aboveNameCand at hsome
      dsimp only at hsome
      split at hsome
      · exact Option.noConfusion hsome
      · cases hsome
        exact mem_getD_flatten
          (List.mem_filter.mp (List.mem_filter.mp ht).1).1
    · unfold prevRowNameCand at ht
      split at ht
      · exact mem_getD_flatten (List.mem_filter.mp ht).1
      · simp at ht

theorem unionBBox_single (pt : Token) : unionBBox [pt] = pt.box := rfl

/-- Everything `itemForCandidate` guarantees about an item it emits. -/
theorem itemForCandidate_spec {rows : List (List Token)} {ridx : Nat}
    {row : List Token} {pt : Token} {it : Item}
    (h : itemForCandidate rows ridx row pt = some it) :
    (it.price.vatTag = "A" ∨ it.price.vatTag = "B" ∨ it.price.vatTag = "C") ∧
    0 ≤ it.price.value ∧
    (∃ ts, ts ≠ [] ∧ (∀ t ∈ ts, t ∈ rows.flatten) ∧
      it.nameBox = unionBBox ts) ∧
    it.priceBox = unionBBox [pt] ∧ it.rowIndex = ridx ∧
    it.price.currency = "EUR" ∧ it.confidence = pt.score := by
  unfold itemForCandidate at h
  split at h
  · exact Option.noConfusion h
  · rename_i vat hvat
    split at h
    · exact Option.noConfusion h
    · split at h
      · exact Option.noConfusion h
      · rename_i hisempty
        split at h
        · exact Option.noConfusion h
        · split at h
          · exact Option.noConfusion h
          · split at h
            · exact Option.noConfusion h
            · rename_i ij i j hsearch
              split at h
              · exact Option.noConfusion h
              · rename_i pr value currency hparse
                cases h
                refine ⟨resolveVat_mem_ABC hvat, ?_, ?_, rfl, rfl, rfl, rfl⟩
                · have hm : ∀ c ∈ (String.mk (sliceL pt.text.data i j)).data,
                      c ≠ '-' := by
                    intro c hc
                    exact slice_noMinus noMinus_priceRe
                      (reSearch_mem hsearch) c hc
                  apply parse_price_nonneg hm
                  rw [hparse]
                · refine ⟨find_name_tokens_for_price pt rows ridx, ?_,
                    find_name_subset pt rows ridx, rfl⟩
                  intro hnil
                  exact hisempty (by rw [hnil]; rfl)

theorem rowItems_mem {rows : List (List Token)} {ridx : Nat}
    {row : List Token} {it : Item} (h : it ∈ rowItems rows ridx row) :
    ∃ pt, pt ∈ row ∧ priceSearchB pt.text = true ∧
      itemForCandidate rows ridx row pt = some it := by
  unfold rowItems at h
  rcases List.mem_filterMap.mp h with ⟨pt, hmem, hsome⟩
  rcases List.mem_filter.mp hmem with ⟨hrow, hps⟩
  exact ⟨pt, hrow, hps, hsome⟩

theorem rowItems_mem_of {rows : List (List Token)} {ridx : Nat}
    {row : List Token} {pt : Token} {it : Item} (h1 : pt ∈ row)
    (h2 : priceSearchB pt.text = true)
    (h3 : itemForCandidate rows ridx row pt = some it) :
    it ∈ rowItems rows ridx row := by
  unfold rowItems
  exact List.mem_filterMap.mpr ⟨pt, List.mem_filter.mpr ⟨h1, h2⟩, h3⟩

theorem buildItemsAux_mem {rows : List (List Token)} :
    ∀ {n : Nat} {rest : List (List Token)} {it : Item},
      it ∈ buildItemsAux rows n rest →
      ∃ ridx row, row ∈ rest ∧ it ∈ rowItems rows ridx row := by
  intro n rest
  induction rest generalizing n with
  | nil =>
    intro it h
    simp [buildItemsAux] at h
  | cons row rest' ih =>
    intro it h
    unfold buildItemsAux at h
    rcases List.mem_append.mp h with h | h
    · exact ⟨n, row, List.mem_cons_self row rest', h⟩
    · rcases ih h with ⟨ridx, row', hmem, h'⟩
      exact ⟨ridx, row', List.mem_cons_of_mem row hmem, h'⟩

theorem buildItemsAux_mem_of {rows : List (List Token)} :
    ∀ {n k : Nat} {rest : List (List Token)} {row : List Token} {it : Item},
      rest.get? k = some row → it ∈ rowItems rows (n + k) row →
      it ∈ buildItemsAux rows n rest := by
  intro n k rest
  induction rest generalizing n k with
  | nil =>
    intro row it h
    exact absurd h (by simp)
  | cons r rest' ih =>
    intro row it hget hmem
    cases k with
    | zero =>
      have : r = row := Option.some.inj hget
      unfold buildItemsAux
      apply List.mem_append.mpr
      left
      rw [this]
      simpa using hmem
    | succ k' =>
      unfold buildItemsAux
      apply List.mem_append.mpr
      right
      exact ih hget (by
        have : n + 1 + k' = n + (k' + 1) := by omega
        rw [this]
        exact hmem)

/-- A price token whose numeral has 309 digits before the decimals: its
exact value (about 1.0e309) exceeds the IEEE double overflow threshold,
so the `float()` call in the code stores infinity for it. -/
def hugePrice : Token :=
  ⟨String.mk (List.replicate 309 '9' ++ [',', '9', '9']), none,
    ⟨200, 0, 240, 20⟩⟩

set_option maxRecDepth 8000 in
/-- C6 counterexample: on a row holding a 309-digit price numeral the
assembler emits an item whose price value reaches the IEEE double
overflow threshold — the code's `float()` saturates to `inf` there and
`inf` passes the `value is None` check — so the emitted value is not
finite and the claim's finiteness conjunct is false of the program. -/
theorem zicount_c6_counterexample :
    (build_items_from_rows [[c1Name, hugePrice, c1Tag]]).map
      (fun it => it.price.value) =
      [natValQ (List.replicate 309 '9') + 99 / 100] ∧
    pyFloatIsInf (natValQ (List.replicate 309 '9') + 99 / 100) = true := by
  decide

/-- C6 (amended): every item the assembler emits satisfies the remaining
data-model invariants — the price value is non-negative (though not
always finite in the code: a numeral at or beyond the double overflow
threshold is emitted as infinity, see the counterexample), the VAT tag is
one of A, B, C, and the name and price boxes are the union bounding boxes
of input tokens (the price box that of the single price token). -/
theorem zicount_c6_item_invariants (rows : List (List Token)) :
    ∀ it ∈ build_items_from_rows rows,
      0 ≤ it.price.value ∧
      (it.price.vatTag = "A" ∨ it.price.vatTag = "B" ∨
        it.price.vatTag = "C") ∧
      (∃ ts, ts ≠ [] ∧ (∀ t ∈ ts, t ∈ rows.flatten) ∧
        it.nameBox = unionBBox ts) ∧
      (∃ pt, pt ∈ rows.flatten ∧ it.priceBox = unionBBox [pt]) := by
  intro it h
  unfold build_items_from_rows at h
  rcases buildItemsAux_mem h with ⟨ridx, row, hrow, hitem⟩
  rcases rowItems_mem hitem with ⟨pt, hpt, _, hsome⟩
  rcases itemForCandidate_spec hsome with
    ⟨habc, hval, hname, hpbox, _, _, _⟩
  exact ⟨hval, habc, hname,
    ⟨pt, List.mem_flatten.mpr ⟨row, hrow, hpt⟩, hpbox⟩⟩

/-- C7: failures are per-candidate — every emitted item carries a resolved
tax tag (never emitted without one); a candidate that succeeds appears in
the output no matter what other candidates do; and every item arises from
exactly the per-candidate pipeline, which returns `none` (dropping just
that candidate) on unresolved tag, unit-price context, missing or
rejected name, or unparseable price. -/
theorem zicount_c7_per_candidate :
    (∀ (rows : List (List Token)) (it : Item),
      it ∈ build_items_from_rows rows →
      it.price.vatTag = "A" ∨ it.price.vatTag = "B" ∨
        it.price.vatTag = "C") ∧
    (∀ (rows : List (List Token)) (ridx : Nat) (row : List Token)
        (pt : Token) (it : Item),
      rows.get? ridx = some row → pt ∈ row → priceSearchB pt.text = true →
      itemForCandidate rows ridx row pt = some it →
      it ∈ build_items_from_rows rows) ∧
    (∀ (rows : List (List Token)) (it : Item),
      it ∈ build_items_from_rows rows →
      ∃ ridx row pt, row ∈ rows ∧ pt ∈ row ∧ priceSearchB pt.text = true ∧
        itemForCandidate rows ridx row pt = some it) := by
  refine ⟨?_, ?_, ?_⟩
  · intro rows it h
    unfold build_items_from_rows at h
    rcases buildItemsAux_mem h with ⟨ridx, row, _, hitem⟩
    rcases rowItems_mem hitem with ⟨pt, _, _, hsome⟩
    exact (itemForCandidate_spec hsome).1
  · intro rows ridx row pt it hget hmem hps hsome
    unfold build_items_from_rows
    exact buildItemsAux_mem_of (n := 0) (by simpa using hget)
      (by simpa using rowItems_mem_of hmem hps hsome)
  · intro rows it h
    unfold build_items_from_rows at h
    rcases buildItemsAux_mem h with ⟨ridx, row, hrow, hitem⟩
    rcases rowItems_mem hitem with ⟨pt, hpt, hps, hsome⟩
    exact ⟨ridx, row, pt, hrow, hpt, hps, hsome⟩

/-- The item the pipeline produces for the end-to-end token row. -/
def c1Item : Item :=
  { rowIndex := 0
    name := "Milch"
    nameBox := ⟨0, 0, 80, 20⟩
    price :=
      { raw := "2,49", value := 249 / 100, currency := "EUR", vatTag := "A" }
    priceBox := ⟨200, 0, 240, 20⟩
    confidence := some (19 / 20) }

set_option maxRecDepth 4000 in
/-- Witness for C6 on the end-to-end row. -/
theorem zicount_c6_witness :
    0 ≤ c1Item.price.value ∧
    (c1Item.price.vatTag = "A" ∨ c1Item.price.vatTag = "B" ∨
      c1Item.price.vatTag = "C") ∧
    (∃ ts, ts ≠ [] ∧ (∀ t ∈ ts, t ∈ [c1Tokens].flatten) ∧
      c1Item.nameBox = unionBBox ts) ∧
    (∃ pt, pt ∈ [c1Tokens].flatten ∧ c1Item.priceBox = unionBBox [pt]) :=
  zicount_c6_item_invariants [c1Tokens] c1Item (by decide)

set_option maxRecDepth 4000 in
/-- Witness for C7 on the end-to-end row: the successful candidate's item
is in the output. -/
theorem zicount_c7_witness : c1Item ∈ build_items_from_rows [c1Tokens] :=
  zicount_c7_per_candidate.2.1 [c1Tokens] 0 c1Tokens c1Price c1Item
    (by decide) (by decide) (by decide) (by decide)
